/-
Verification of the Context Tree Weighting core (ctw.go) of the
factored-ctw repository.

The Go code is embedded shallowly:

* `treeNode` (a mutable heap node reached through `*treeNode` pointers)
  becomes an inductive tree; the Go `nil` pointer is the explicit
  constructor `treeNode.nil`, and `&treeNode{}` is `newNode`.
* Machine `float64` values in natural-log domain become real numbers,
  so the arithmetic identities are exact; `math.Log1p`, `math.Exp` and
  `math.Log` become `Real.log`/`Real.exp`.
* The snapshot stack of `update` stores, per visited node, the saved
  field values together with the `isNew` flag.  The Go snapshot also
  stores the pointer `node`; `revert` only uses that pointer to decide
  whether the next snapshot's node is the current node's `Right` or
  `Left` child.  During `update` the node of snapshot `i+1` is exactly
  the child that the descent entered from the node of snapshot `i`, and
  that direction is the context bit consumed at step `i`.  The embedding
  therefore records that direction in the field `snapshot.dir`.
* In-place mutation becomes functional update along the traversed path;
  `update` returns the new tree together with the snapshot list, and
  `revert` maps the new tree and the snapshot list back to a tree.
-/
import Mathlib

noncomputable section

namespace Ctw

/-- A suffix-tree node of the CTW, or the Go `nil` pointer
(`treeNode.nil`).  Field order follows the Go struct: `LogProb`, `A`,
`B`, `Lktp`, `Left`, `Right`.  Counts are naturals, log-probabilities
are reals. -/
inductive treeNode where
  | nil : treeNode
  | node (logProb : ℝ) (a b : ℕ) (lktp : ℝ) (left right : treeNode) : treeNode

/-- `LogProb` field; reading it through a `nil` pointer does not happen
in the source, `0` is the junk value (it coincides with the `lp`/`rp`
default the source uses for absent children). -/
def treeNode.LogProb : treeNode → ℝ
  | treeNode.nil => 0
  | treeNode.node lw _ _ _ _ _ => lw

/-- `A` field (number of observed zeros). -/
def treeNode.A : treeNode → ℕ
  | treeNode.nil => 0
  | treeNode.node _ a _ _ _ _ => a

/-- `B` field (number of observed ones). -/
def treeNode.B : treeNode → ℕ
  | treeNode.nil => 0
  | treeNode.node _ _ b _ _ _ => b

/-- `Lktp` field (log of the KT estimate). -/
def treeNode.Lktp : treeNode → ℝ
  | treeNode.nil => 0
  | treeNode.node _ _ _ k _ _ => k

/-- `Left` child (the sub-suffix that ends with one). -/
def treeNode.Left : treeNode → treeNode
  | treeNode.nil => treeNode.nil
  | treeNode.node _ _ _ _ l _ => l

/-- `Right` child (the sub-suffix that ends with zero). -/
def treeNode.Right : treeNode → treeNode
  | treeNode.nil => treeNode.nil
  | treeNode.node _ _ _ _ _ r => r

/-- The Go test `ptr == nil`. -/
def treeNode.isNil : treeNode → Bool
  | treeNode.nil => true
  | treeNode.node _ _ _ _ _ _ => false

/-- The zero-initialised node `&treeNode{}` allocated for a missing
child. -/
def newNode : treeNode := treeNode.node 0 0 0 0 treeNode.nil treeNode.nil

/-- `math.Log1p x = log (1 + x)`. -/
def log1p (x : ℝ) : ℝ := Real.log (1 + x)

/-- `logaddexp` of ctw.go: the numerically stable `log (exp x + exp y)`.
The Go third branch handles NaN only; over the reals the two guards
`tmp > 0` and `tmp ≤ 0` are exhaustive. -/
def logaddexp (x y : ℝ) : ℝ :=
  if x - y > 0 then x + log1p (Real.exp (-(x - y)))
  else y + log1p (Real.exp (x - y))

/-- One snapshot of the traversal stack: the saved field values of the
visited node, the `isNew` flag, and `dir`, which embeds the pointer
identity of the Go field `node`: the node of a non-root snapshot is the
child that the descent entered on context bit `dir` (`false` = bit 0 =
`Right`).  The `dir` of the first (root) snapshot is never read. -/
structure snapshot where
  dir : Bool
  isNew : Bool
  a : ℕ
  b : ℕ
  lktp : ℝ
  logProb : ℝ

/-- `krichevskyTrofimov` of ctw.go: sequential KT update of one node.
The log-ratio uses the counts before the increment, exactly as the
source does.  The Go `int` bit is a `Bool` (`false` = 0); the source
rejects any other value with `log.Fatalf` before reaching this code. -/
def krichevskyTrofimov : treeNode → Bool → treeNode
  | treeNode.nil, _ => treeNode.nil
  | treeNode.node lw a b lktp l r, false =>
      treeNode.node lw (a + 1) b
        (lktp + Real.log ((a : ℝ) + 0.5) - Real.log ((a : ℝ) + (b : ℝ) + 1)) l r
  | treeNode.node lw a b lktp l r, true =>
      treeNode.node lw a (b + 1)
        (lktp + Real.log ((b : ℝ) + 0.5) - Real.log ((a : ℝ) + (b : ℝ) + 1)) l r

/-- The second phase of `update` applied to one node: recompute
`LogProb` from `Lktp` and the children's `LogProb` (`0` for absent
children), with mixing weight `w = 0.5`. -/
def recompute : treeNode → treeNode
  | treeNode.nil => treeNode.nil
  | treeNode.node _ a b lktp l r =>
    if !l.isNil || !r.isNil then
      treeNode.node
        (logaddexp (Real.log 0.5 + lktp)
          (Real.log (1 - 0.5) + l.LogProb + r.LogProb)) a b lktp l r
    else
      treeNode.node lktp a b lktp l r

/-- The child the update descends into on context bit `c`:
`bits[...] == 0` descends into `Right`, otherwise into `Left`. -/
def childAt : treeNode → Bool → treeNode
  | t, false => t.Right
  | t, true => t.Left

/-- Replace the child in direction `c` (the in-place pointer write
`node.Right = ...` / `node.Left = ...`). -/
def setChildAt : treeNode → Bool → treeNode → treeNode
  | treeNode.nil, _, _ => treeNode.nil
  | treeNode.node lw a b k l _, false, c => treeNode.node lw a b k l c
  | treeNode.node lw a b k _ r, true, c => treeNode.node lw a b k c r

/-- The recursive core of `update`.  `ctx` is the context in the order
the descent consumes it (`bits[len-1]`, `bits[len-2]`, ..., i.e. the
reversed context window), `dir` and `isNew` describe how the current
node was reached (they fill its snapshot), `z` is the new bit.  The
first component is the updated subtree after both phases (KT updates on
the way down, `LogProb` recomputation on the way up — the Go reverse
loop recomputes a parent only after its updated child, which is exactly
this recursion), the second the snapshot list of the visited nodes.
`update` is never called on a nil root. -/
def updAux : treeNode → Bool → Bool → List Bool → Bool → treeNode × List snapshot
  | treeNode.nil, _, _, _, _ => (treeNode.nil, [])
  | treeNode.node lw a b lktp l r, dir, isNew, [], z =>
      (recompute (krichevskyTrofimov (treeNode.node lw a b lktp l r) z),
       [⟨dir, isNew, a, b, lktp, lw⟩])
  | treeNode.node lw a b lktp l r, dir, isNew, c :: rest, z =>
      let n1 := krichevskyTrofimov (treeNode.node lw a b lktp l r) z
      let c0 := childAt (treeNode.node lw a b lktp l r) c
      let res :=
        if c0.isNil then updAux newNode c true rest z
        else updAux c0 c false rest z
      (recompute (setChildAt n1 c res.1), ⟨dir, isNew, a, b, lktp, lw⟩ :: res.2)

/-- `update` of ctw.go.  The Go loop reads `bits[len(bits)-1-d]` for
`d = 0, 1, ...`, i.e. it consumes `bits` in reverse order. -/
def update (root : treeNode) (bits : List Bool) (bit : Bool) :
    treeNode × List snapshot :=
  updAux root false false bits.reverse bit

/-- Restoring one node's saved fields (`Lktp`, `A`, `B`, `LogProb`)
from a snapshot; the children are untouched. -/
def restoreFields : treeNode → snapshot → treeNode
  | treeNode.nil, _ => treeNode.nil
  | treeNode.node _ _ _ _ l r, s => treeNode.node s.logProb s.a s.b s.lktp l r

/-- `revert` of ctw.go.  Walking the snapshot list root-first it writes
the saved fields back; when the next snapshot is `isNew`, it clears the
pointer of the current node that points at the new child (the direction
is `dir`, see `snapshot`) and stops.  The nil-child guard is
unreachable on snapshot lists produced by `update`. -/
def revert : treeNode → List snapshot → treeNode
  | t, [] => t
  | t, [s] => restoreFields t s
  | t, s :: s2 :: rest =>
    let t1 := restoreFields t s
    if s2.isNew then setChildAt t1 s2.dir treeNode.nil
    else if (childAt t1 s2.dir).isNil then t1
    else setChildAt t1 s2.dir (revert (childAt t1 s2.dir) (s2 :: rest))

/-- The CTW model of ctw.go: the context window `Bits` (`Bits[D-1]` is
the most recent bit) and the tree root. -/
structure CTW where
  Bits : List Bool
  Root : treeNode

/-- `NewCTW`: fresh root, prior context `bits`. -/
def NewCTW (bits : List Bool) : CTW := ⟨bits, newNode⟩

/-- The context-window shift of `CTW.observe`: drop `Bits[0]`, append
the new bit at `Bits[D-1]`.  On an empty window the source writes to
index `-1` and panics; that case is unreachable (D ≥ 1) and maps to the
empty window here. -/
def shiftWindow (bits : List Bool) (b : Bool) : List Bool :=
  match bits with
  | [] => []
  | _ :: rest => rest ++ [b]

/-- Lower-case `observe` of ctw.go: update the tree with the current
window, then shift the window; returns the new state together with the
traversal (the Go method mutates in place and returns the traversal). -/
def CTW.observe (m : CTW) (bit : Bool) : CTW × List snapshot :=
  let tr := update m.Root m.Bits bit
  (⟨shiftWindow m.Bits bit, tr.1⟩, tr.2)

/-- `CTW.Observe`: commit one bit. -/
def CTW.Observe (m : CTW) (bit : Bool) : CTW := (m.observe bit).1

/-- `CTW.Prob0` of ctw.go: record the root `LogProb`, update with bit
0, read the root `LogProb` again, revert, and return
`exp (after - before)`.  The Go method mutates the tree and reverts it
before returning; the embedding returns the value together with the
state after the call, so that the claim that the state is unchanged is
expressible. -/
def CTW.Prob0 (m : CTW) : ℝ × CTW :=
  let before := m.Root.LogProb
  let tr := update m.Root m.Bits false
  let after := tr.1.LogProb
  (Real.exp (after - before), ⟨m.Bits, revert tr.1 tr.2⟩)

/-- The `CTWReverter` of ctw.go: the wrapped model, the stack of
shifted-out context bits, and the stack of traversals.  The Go slices
are pushed/popped at the end; the embedding pushes/pops at the head of
the lists, which is the same LIFO discipline. -/
structure CTWReverter where
  model : CTW
  bits : List Bool
  traversals : List (List snapshot)

/-- `NewCTWReverter`. -/
def NewCTWReverter (model : CTW) : CTWReverter := ⟨model, [], []⟩

/-- `CTWReverter.Prob0` delegates to the model. -/
def CTWReverter.Prob0 (cr : CTWReverter) : ℝ := (cr.model.Prob0).1

/-- `CTWReverter.Observe`: push the bit about to be shifted out
(`model.Bits[0]`, read before observing) and the traversal, then
observe on the model.  Reading `Bits[0]` of an empty window panics in
the source; that case (D = 0) is a no-op here and excluded by
hypothesis in the theorems. -/
def CTWReverter.Observe (cr : CTWReverter) (bit : Bool) : CTWReverter :=
  match cr.model.Bits with
  | [] => cr
  | b0 :: _ =>
    let ot := cr.model.observe bit
    ⟨ot.1, b0 :: cr.bits, ot.2 :: cr.traversals⟩

/-- The context-window shift of `CTWReverter.Unobserve`: shift right by
one and restore `Bits[0]` from the popped bit.  Writing `Bits[0]` of an
empty window panics in the source; unreachable for D ≥ 1. -/
def shiftWindowRight (bits : List Bool) (b0 : Bool) : List Bool :=
  match bits with
  | [] => []
  | _ :: _ => b0 :: bits.dropLast

/-- `CTWReverter.Unobserve`: pop the top traversal, revert the tree
with it, shift the window right and restore its head from the popped
bit.  Popping an empty stack panics in the source (precondition). -/
def CTWReverter.Unobserve (cr : CTWReverter) : CTWReverter :=
  match cr.traversals, cr.bits with
  | tv :: tvs, b0 :: bs =>
      ⟨⟨shiftWindowRight cr.model.Bits b0, revert cr.model.Root tv⟩, bs, tvs⟩
  | _, _ => cr

/-- The FCTW of ctw.go.  In the source every one of the `Block_len`
`CTW`s created by `NewFCTW` stores the *same* slice header `bits`, so
all trees alias a single context window; the embedding therefore keeps
the tree roots in `Trees` and the one shared window in `Bits`. -/
structure FCTW where
  Trees : List treeNode
  Bits : List Bool
  Block_len : ℕ
  Index : ℕ

/-- `NewFCTW`: `block_len` fresh trees sharing the window `bits`,
initial index `len(bits) % block_len`. -/
def NewFCTW (block_len : ℕ) (bits : List Bool) : FCTW :=
  ⟨List.replicate block_len newNode, bits, block_len, bits.length % block_len⟩

/-- One iteration of the `FCTW.Observe` loop: `observe` on one tree
reads the current shared window, updates that tree, and shifts the
shared window. -/
def observeStep (bit : Bool) (st : List Bool × List treeNode) (root : treeNode) :
    List Bool × List treeNode :=
  (shiftWindow st.1 bit, st.2 ++ [(update root st.1 bit).1])

/-- `FCTW.Observe` of ctw.go: call `observe(bit)` on every tree in
order (each call shifts the shared window once), then advance the
index modulo `Block_len`. -/
def FCTW.Observe (m : FCTW) (bit : Bool) : FCTW :=
  let res := m.Trees.foldl (observeStep bit) (m.Bits, [])
  ⟨res.2, res.1, m.Block_len, (m.Index + 1) % m.Block_len⟩

/-- `FCTW.Prob0`: speculative update of the tree at `Index` with bit 0
against the shared window (updated then reverted, like `CTW.Prob0`). -/
def FCTW.Prob0 (m : FCTW) : ℝ :=
  let tree := m.Trees.getD m.Index treeNode.nil
  Real.exp ((update tree m.Bits false).1.LogProb - tree.LogProb)

/-- A VOM node of ctw.go, or the Go `nil` pointer.  Field order follows
the Go struct: `Leaf`, `CondProb0`, `MaxLogProb`, `Child0`, `Child1`. -/
inductive VOMNode where
  | nil : VOMNode
  | node (leaf : Bool) (condProb0 maxLogProb : ℝ) (child0 child1 : VOMNode) : VOMNode

/-- `Leaf` field (dereferencing `nil` panics in the source; `false` is
the junk value). -/
def VOMNode.Leaf : VOMNode → Bool
  | VOMNode.nil => false
  | VOMNode.node lf _ _ _ _ => lf

/-- `CondProb0` field (junk `0` at `nil`). -/
def VOMNode.CondProb0 : VOMNode → ℝ
  | VOMNode.nil => 0
  | VOMNode.node _ p _ _ _ => p

/-- `MaxLogProb` field.  The junk value at `nil` is `0`, which makes
`(ToVOMNode l).MaxLogProb` coincide with the source's `mlp` (kept `0`
when the child is absent). -/
def VOMNode.MaxLogProb : VOMNode → ℝ
  | VOMNode.nil => 0
  | VOMNode.node _ _ m _ _ => m

/-- `Child0` (route for context bit 0). -/
def VOMNode.Child0 : VOMNode → VOMNode
  | VOMNode.nil => VOMNode.nil
  | VOMNode.node _ _ _ c _ => c

/-- `Child1` (route for context bit 1). -/
def VOMNode.Child1 : VOMNode → VOMNode
  | VOMNode.nil => VOMNode.nil
  | VOMNode.node _ _ _ _ c => c

/-- The Go test `ptr == nil` for VOM nodes. -/
def VOMNode.isNil : VOMNode → Bool
  | VOMNode.nil => true
  | VOMNode.node _ _ _ _ _ => false

/-- The default leaf `{true, 0.5, 0.0, nil, nil}` substituted for an
absent CTW child when a VOM internal node is built. -/
def defaultVOMLeaf : VOMNode := VOMNode.node true 0.5 0.0 VOMNode.nil VOMNode.nil

/-- `ToVOMNode` of ctw.go (context-tree maximization).  A terminal CTW
node becomes a leaf carrying `ktp = (a+0.5)/(a+b+1)` and
`MaxLogProb = Lktp`.  Otherwise the children are converted (`mlp`/`mrp`
stay `0` for absent children), and the node collapses to a leaf iff
`Lktp ≥ mlp + mrp`; the emitted internal node stores criteria
`Child0 := RightVOM` and `Child1 := LeftVOM` — `Right` is the CTW child
for context bit 0, so `Child0` is the context-bit-0 route — with
absent children replaced by `defaultVOMLeaf`.  The source never
converts a nil pointer; `nil` maps to the Go nil result it would
return. -/
def ToVOMNode : treeNode → VOMNode
  | treeNode.nil => VOMNode.nil
  | treeNode.node _ a b lktp l r =>
    let ktp : ℝ := ((a : ℝ) + 0.5) / ((a : ℝ) + (b : ℝ) + 1.0)
    if l.isNil && r.isNil then
      VOMNode.node true ktp lktp VOMNode.nil VOMNode.nil
    else
      let leftVOM := ToVOMNode l
      let rightVOM := ToVOMNode r
      let mlp := leftVOM.MaxLogProb
      let mrp := rightVOM.MaxLogProb
      if lktp ≥ mlp + mrp then
        VOMNode.node true ktp lktp VOMNode.nil VOMNode.nil
      else
        VOMNode.node false (-1.0) (mlp + mrp)
          (if r.isNil then defaultVOMLeaf else rightVOM)
          (if l.isNil then defaultVOMLeaf else leftVOM)

/-- The VOM model: frozen tree plus context window. -/
structure VOM where
  Root : VOMNode
  Bits : List Bool

/-- `NewVOM`: a single default leaf. -/
def NewVOM (bits : List Bool) : VOM := ⟨VOMNode.node true 0.5 0.0 VOMNode.nil VOMNode.nil, bits⟩

/-- `ToVOM`: convert a CTW (the source copies the `Bits` slice, which
is value-equal to sharing it here). -/
def ToVOM (m : CTW) : VOM := ⟨ToVOMNode m.Root, m.Bits⟩

/-- The route taken by `VOM.Prob0` on context bit `c`: bit 0 goes into
`Child0`. -/
def vchildAt : VOMNode → Bool → VOMNode
  | n, false => n.Child0
  | n, true => n.Child1

/-- The loop of `VOM.Prob0`: at step `d` (with `fuel = len - d` steps
remaining) return `CondProb0` of the current node if it is a leaf,
otherwise descend on `Bits[len-d-1]`; after the last step return
`CondProb0` of the node reached. -/
def vomLoop (bits : List Bool) : ℕ → VOMNode → ℕ → ℝ
  | 0, n, _ => n.CondProb0
  | fuel + 1, n, d =>
    if n.Leaf then n.CondProb0
    else vomLoop bits fuel (vchildAt n (bits.getD (bits.length - d - 1) false)) (d + 1)

/-- `VOM.Prob0` of ctw.go. -/
def VOM.Prob0 (m : VOM) : ℝ := vomLoop m.Bits m.Bits.length m.Root 0

/-- `VOM.Observe`: only the context window advances; the tree is
frozen. -/
def VOM.Observe (m : VOM) (bit : Bool) : VOM := ⟨m.Root, shiftWindow m.Bits bit⟩

/-! ### Basic facts about one update step -/

theorem krichevskyTrofimov_isNil (t : treeNode) (z : Bool) :
    (krichevskyTrofimov t z).isNil = t.isNil := by
  cases t <;> cases z <;> rfl

theorem recompute_isNil (t : treeNode) : (recompute t).isNil = t.isNil := by
  cases t with
  | nil => rfl
  | node lw a b lktp l r =>
    simp only [recompute]
    split <;> rfl

theorem setChildAt_isNil (t : treeNode) (c : Bool) (x : treeNode) :
    (setChildAt t c x).isNil = t.isNil := by
  cases t <;> cases c <;> rfl

/-- The updated tree returned by `updAux` is nil exactly when the input
was (updating never discards or creates the root). -/
theorem updAux_fst_isNil (t : treeNode) (dir f : Bool) (ctx : List Bool) (z : Bool) :
    ((updAux t dir f ctx z).1).isNil = t.isNil := by
  cases t with
  | nil => cases ctx <;> rfl
  | node lw a b lktp l r =>
    cases ctx with
    | nil =>
      simp only [updAux]
      rw [recompute_isNil, krichevskyTrofimov_isNil]
    | cons c rest =>
      simp only [updAux]
      rw [recompute_isNil, setChildAt_isNil, krichevskyTrofimov_isNil]

/-- The first snapshot of a traversal saves the fields of the visited
node together with the flags it was reached with. -/
theorem updAux_snd_eq (lw : ℝ) (a b : ℕ) (lktp : ℝ) (l r : treeNode)
    (dir f : Bool) (ctx : List Bool) (z : Bool) :
    ∃ tl, (updAux (treeNode.node lw a b lktp l r) dir f ctx z).2
      = ⟨dir, f, a, b, lktp, lw⟩ :: tl := by
  cases ctx with
  | nil => exact ⟨[], rfl⟩
  | cons c rest => exact ⟨_, rfl⟩

theorem updAux_snd_eq_new (c : Bool) (rest : List Bool) (z : Bool) :
    ∃ tl, (updAux newNode c true rest z).2 = ⟨c, true, 0, 0, 0, 0⟩ :: tl :=
  updAux_snd_eq 0 0 0 0 treeNode.nil treeNode.nil c true rest z

/-- Unfolding `updAux` one level when the chosen child (here: `Right`,
context bit 0) is absent and gets allocated. -/
theorem updAux_cons_right_nil (lw : ℝ) (a b : ℕ) (lktp : ℝ) (l : treeNode)
    (dir f : Bool) (rest : List Bool) (z : Bool) :
    updAux (treeNode.node lw a b lktp l treeNode.nil) dir f (false :: rest) z
      = (recompute (setChildAt
            (krichevskyTrofimov (treeNode.node lw a b lktp l treeNode.nil) z)
            false (updAux newNode false true rest z).1),
         ⟨dir, f, a, b, lktp, lw⟩ :: (updAux newNode false true rest z).2) := rfl

/-- Unfolding `updAux` one level when the chosen child (`Right`) is
present. -/
theorem updAux_cons_right_node (lw : ℝ) (a b : ℕ) (lktp : ℝ) (l : treeNode)
    (rlw : ℝ) (ra rb : ℕ) (rk : ℝ) (rl rr : treeNode)
    (dir f : Bool) (rest : List Bool) (z : Bool) :
    updAux (treeNode.node lw a b lktp l (treeNode.node rlw ra rb rk rl rr)) dir f
        (false :: rest) z
      = (recompute (setChildAt
            (krichevskyTrofimov
              (treeNode.node lw a b lktp l (treeNode.node rlw ra rb rk rl rr)) z)
            false (updAux (treeNode.node rlw ra rb rk rl rr) false false rest z).1),
         ⟨dir, f, a, b, lktp, lw⟩
           :: (updAux (treeNode.node rlw ra rb rk rl rr) false false rest z).2) := rfl

/-- Unfolding `updAux` one level when the chosen child (here: `Left`,
context bit 1) is absent and gets allocated. -/
theorem updAux_cons_left_nil (lw : ℝ) (a b : ℕ) (lktp : ℝ) (r : treeNode)
    (dir f : Bool) (rest : List Bool) (z : Bool) :
    updAux (treeNode.node lw a b lktp treeNode.nil r) dir f (true :: rest) z
      = (recompute (setChildAt
            (krichevskyTrofimov (treeNode.node lw a b lktp treeNode.nil r) z)
            true (updAux newNode true true rest z).1),
         ⟨dir, f, a, b, lktp, lw⟩ :: (updAux newNode true true rest z).2) := rfl

/-- Unfolding `updAux` one level when the chosen child (`Left`) is
present. -/
theorem updAux_cons_left_node (lw : ℝ) (a b : ℕ) (lktp : ℝ) (r : treeNode)
    (llw : ℝ) (la lb : ℕ) (lk : ℝ) (ll lr : treeNode)
    (dir f : Bool) (rest : List Bool) (z : Bool) :
    updAux (treeNode.node lw a b lktp (treeNode.node llw la lb lk ll lr) r) dir f
        (true :: rest) z
      = (recompute (setChildAt
            (krichevskyTrofimov
              (treeNode.node lw a b lktp (treeNode.node llw la lb lk ll lr) r) z)
            true (updAux (treeNode.node llw la lb lk ll lr) true false rest z).1),
         ⟨dir, f, a, b, lktp, lw⟩
           :: (updAux (treeNode.node llw la lb lk ll lr) true false rest z).2) := rfl

/-- `revert` on a stack whose second snapshot is `isNew`: restore the
first node, detach the new child, stop. -/
theorem revert_cons_new (T : treeNode) (s s2 : snapshot) (tl : List snapshot)
    (h : s2.isNew = true) :
    revert T (s :: s2 :: tl) = setChildAt (restoreFields T s) s2.dir treeNode.nil := by
  simp [revert, h]

/-- `revert` on a stack whose second snapshot is not `isNew` (and whose
node — the child in direction `s2.dir` — exists): restore the first
node and recurse into that child. -/
theorem revert_cons_old (T : treeNode) (s s2 : snapshot) (tl : List snapshot)
    (h : s2.isNew = false)
    (h2 : (childAt (restoreFields T s) s2.dir).isNil = false) :
    revert T (s :: s2 :: tl)
      = setChildAt (restoreFields T s) s2.dir
          (revert (childAt (restoreFields T s) s2.dir) (s2 :: tl)) := by
  simp [revert, h, h2]

/-- Restoring the saved fields after an update step undoes the KT
update and the `LogProb` recomputation, leaving only the new child in
place. -/
theorem restore_recompute (lw : ℝ) (a b : ℕ) (lktp : ℝ) (l r : treeNode)
    (z c : Bool) (x : treeNode) (dir f : Bool) :
    restoreFields
        (recompute (setChildAt (krichevskyTrofimov (treeNode.node lw a b lktp l r) z) c x))
        ⟨dir, f, a, b, lktp, lw⟩
      = setChildAt (treeNode.node lw a b lktp l r) c x := by
  cases z <;> cases c <;>
    (simp only [krichevskyTrofimov, setChildAt, recompute]
     split <;> rfl)

theorem childAt_setChildAt (lw : ℝ) (a b : ℕ) (lktp : ℝ) (l r : treeNode)
    (c : Bool) (x : treeNode) :
    childAt (setChildAt (treeNode.node lw a b lktp l r) c x) c = x := by
  cases c <;> rfl

theorem setChildAt_setChildAt (lw : ℝ) (a b : ℕ) (lktp : ℝ) (l r : treeNode)
    (c : Bool) (x y : treeNode) :
    setChildAt (setChildAt (treeNode.node lw a b lktp l r) c x) c y
      = setChildAt (treeNode.node lw a b lktp l r) c y := by
  cases c <;> rfl

/-! ### Revert is an exact inverse of update -/

/-- Core round-trip: reverting with the snapshot list returned by the
update restores the subtree bit-exactly, including detaching any nodes
the update allocated. -/
theorem revert_updAux (ctx : List Bool) :
    ∀ (lw : ℝ) (a b : ℕ) (lktp : ℝ) (l r : treeNode) (dir f z : Bool),
      revert (updAux (treeNode.node lw a b lktp l r) dir f ctx z).1
             (updAux (treeNode.node lw a b lktp l r) dir f ctx z).2
        = treeNode.node lw a b lktp l r := by
  induction ctx with
  | nil =>
    intro lw a b lktp l r dir f z
    cases z <;>
      (simp only [updAux, krichevskyTrofimov, recompute, revert]
       split <;> rfl)
  | cons c rest ih =>
    intro lw a b lktp l r dir f z
    cases c with
    | false =>
      cases r with
      | nil =>
        obtain ⟨tl, htl⟩ := updAux_snd_eq_new false rest z
        rw [updAux_cons_right_nil, htl, revert_cons_new _ _ _ _ rfl,
            restore_recompute, setChildAt_setChildAt]
        rfl
      | node rlw ra rb rk rl rr =>
        obtain ⟨tl, htl⟩ := updAux_snd_eq rlw ra rb rk rl rr false false rest z
        have h2 : (childAt
            (restoreFields
              (recompute (setChildAt
                (krichevskyTrofimov
                  (treeNode.node lw a b lktp l (treeNode.node rlw ra rb rk rl rr)) z)
                false (updAux (treeNode.node rlw ra rb rk rl rr) false false rest z).1))
              ⟨dir, f, a, b, lktp, lw⟩) false).isNil = false := by
          rw [restore_recompute, childAt_setChildAt, updAux_fst_isNil]
          rfl
        rw [updAux_cons_right_node, htl, revert_cons_old _ _ _ _ rfl h2,
            restore_recompute, childAt_setChildAt, ← htl, ih,
            setChildAt_setChildAt]
        rfl
    | true =>
      cases l with
      | nil =>
        obtain ⟨tl, htl⟩ := updAux_snd_eq_new true rest z
        rw [updAux_cons_left_nil, htl, revert_cons_new _ _ _ _ rfl,
            restore_recompute, setChildAt_setChildAt]
        rfl
      | node llw la lb lk ll lr =>
        obtain ⟨tl, htl⟩ := updAux_snd_eq llw la lb lk ll lr true false rest z
        have h2 : (childAt
            (restoreFields
              (recompute (setChildAt
                (krichevskyTrofimov
                  (treeNode.node lw a b lktp (treeNode.node llw la lb lk ll lr) r) z)
                true (updAux (treeNode.node llw la lb lk ll lr) true false rest z).1))
              ⟨dir, f, a, b, lktp, lw⟩) true).isNil = false := by
          rw [restore_recompute, childAt_setChildAt, updAux_fst_isNil]
          rfl
        rw [updAux_cons_left_node, htl, revert_cons_old _ _ _ _ rfl h2,
            restore_recompute, childAt_setChildAt, ← htl, ih,
            setChildAt_setChildAt]
        rfl

/-- `revert` undoes `update` exactly, for every tree, context and bit. -/
theorem revert_update (t : treeNode) (bits : List Bool) (z : Bool) :
    revert (update t bits z).1 (update t bits z).2 = t := by
  cases t with
  | nil =>
    unfold update
    cases bits.reverse <;> rfl
  | node lw a b lktp l r => exact revert_updAux bits.reverse lw a b lktp l r false false z

/-! ### Reverter round trip -/

theorem shiftWindow_ne_nil (bits : List Bool) (b : Bool) (h : bits ≠ []) :
    shiftWindow bits b ≠ [] := by
  cases bits with
  | nil => exact absurd rfl h
  | cons b0 rest => simp [shiftWindow]

theorem shiftWindowRight_shiftWindow (b0 : Bool) (rest : List Bool) (b : Bool) :
    shiftWindowRight (shiftWindow (b0 :: rest) b) b0 = b0 :: rest := by
  cases rest with
  | nil => rfl
  | cons x xs =>
    show shiftWindowRight (x :: (xs ++ [b])) b0 = b0 :: x :: xs
    show b0 :: (x :: (xs ++ [b])).dropLast = b0 :: x :: xs
    rw [show x :: (xs ++ [b]) = (x :: xs) ++ [b] from rfl, List.dropLast_concat]

/-- One `Unobserve` exactly undoes the matching `Observe`, including
the reverter's own stacks. -/
theorem unobserve_observe (cr : CTWReverter) (b : Bool) (h : cr.model.Bits ≠ []) :
    (cr.Observe b).Unobserve = cr := by
  obtain ⟨⟨bits, root⟩, sbits, trs⟩ := cr
  cases bits with
  | nil => exact absurd rfl h
  | cons b0 rest =>
    show CTWReverter.Unobserve
        ⟨⟨shiftWindow (b0 :: rest) b, (update root (b0 :: rest) b).1⟩,
         b0 :: sbits, (update root (b0 :: rest) b).2 :: trs⟩
      = ⟨⟨b0 :: rest, root⟩, sbits, trs⟩
    show (⟨⟨shiftWindowRight (shiftWindow (b0 :: rest) b) b0,
        revert (update root (b0 :: rest) b).1 (update root (b0 :: rest) b).2⟩,
        sbits, trs⟩ : CTWReverter) = ⟨⟨b0 :: rest, root⟩, sbits, trs⟩
    rw [shiftWindowRight_shiftWindow, revert_update]

theorem observe_window_ne_nil (cr : CTWReverter) (b : Bool) (h : cr.model.Bits ≠ []) :
    (cr.Observe b).model.Bits ≠ [] := by
  obtain ⟨⟨bits, root⟩, sbits, trs⟩ := cr
  cases bits with
  | nil => exact absurd rfl h
  | cons b0 rest =>
    show shiftWindow (b0 :: rest) b ≠ []
    exact shiftWindow_ne_nil _ b (by simp)

/-- N speculative observations followed by N `Unobserve` calls restore
the whole reverter (model, context window and both stacks). -/
theorem reverter_roundtrip (obs : List Bool) :
    ∀ cr : CTWReverter, cr.model.Bits ≠ [] →
      CTWReverter.Unobserve^[obs.length] (obs.foldl CTWReverter.Observe cr) = cr := by
  induction obs with
  | nil => intro cr _; rfl
  | cons b rest ih =>
    intro cr h
    have h2 : (cr.Observe b).model.Bits ≠ [] := observe_window_ne_nil cr b h
    calc
      CTWReverter.Unobserve^[(b :: rest).length] ((b :: rest).foldl CTWReverter.Observe cr)
          = CTWReverter.Unobserve
              (CTWReverter.Unobserve^[rest.length]
                (rest.foldl CTWReverter.Observe (cr.Observe b))) := by
            rw [List.foldl_cons, List.length_cons, Function.iterate_succ_apply']
      _ = (cr.Observe b).Unobserve := by rw [ih _ h2]
      _ = cr := unobserve_observe cr b h

/-! ### Snapshot `isNew` flags form a contiguous tail -/

/-- Every snapshot in the list is marked `isNew`. -/
def allNew (tr : List snapshot) : Prop := ∀ s ∈ tr, s.isNew = true

/-- Recursive form of the tail property: whenever a snapshot is marked
`isNew`, all later ones are too. -/
def tailNew : List snapshot → Prop
  | [] => True
  | s :: rest => (s.isNew = true → allNew rest) ∧ tailNew rest

/-- Index form of the tail property, as the spec words it. -/
def newTailIdx (tr : List snapshot) : Prop :=
  ∀ i j (hi : i < tr.length) (hj : j < tr.length), i ≤ j →
    (tr.get ⟨i, hi⟩).isNew = true → (tr.get ⟨j, hj⟩).isNew = true

theorem allNew_tailNew : ∀ tr, allNew tr → tailNew tr := by
  intro tr
  induction tr with
  | nil => intro _; trivial
  | cons s rest ih =>
    intro h
    exact ⟨fun _ s2 hs2 => h s2 (List.mem_cons_of_mem s hs2),
           ih (fun s2 hs2 => h s2 (List.mem_cons_of_mem s hs2))⟩

theorem tailNew_newTailIdx : ∀ tr, tailNew tr → newTailIdx tr := by
  intro tr
  induction tr with
  | nil => intro _ i j hi; simp at hi
  | cons s rest ih =>
    intro h i j hi hj hij hnew
    cases i with
    | zero =>
      cases j with
      | zero => exact hnew
      | succ j' =>
        have hall := h.1 hnew
        have hj' : j' < rest.length := by simpa using hj
        have hget : (s :: rest).get ⟨j' + 1, hj⟩ = rest.get ⟨j', hj'⟩ := rfl
        rw [hget]
        exact hall _ (List.get_mem rest j' hj')
    | succ i' =>
      cases j with
      | zero => omega
      | succ j' =>
        exact ih h.2 i' j' (by simpa using hi) (by simpa using hj) (by omega) hnew

/-- Below a freshly allocated node every visited node is freshly
allocated, so the whole traversal of the new subtree is `isNew`. -/
theorem updAux_allNew (rest : List Bool) :
    ∀ (c z : Bool), allNew (updAux newNode c true rest z).2 := by
  induction rest with
  | nil =>
    intro c z s hs
    have : s = ⟨c, true, 0, 0, 0, 0⟩ := by
      simpa [newNode, updAux] using hs
    rw [this]
  | cons c2 rest2 ih =>
    intro c z s hs
    have hs2 : s = ⟨c, true, 0, 0, 0, 0⟩ ∨ s ∈ (updAux newNode c2 true rest2 z).2 := by
      cases c2 <;> simpa [newNode, updAux, childAt, treeNode.Right, treeNode.Left,
        treeNode.isNil] using hs
    rcases hs2 with h | h
    · rw [h]
    · exact ih c2 z s h

/-- The traversal of an update starting at an already existing node has
the contiguous-tail property. -/
theorem updAux_tailNew (ctx : List Bool) :
    ∀ (lw : ℝ) (a b : ℕ) (lktp : ℝ) (l r : treeNode) (dir z : Bool),
      tailNew (updAux (treeNode.node lw a b lktp l r) dir false ctx z).2 := by
  induction ctx with
  | nil =>
    intro lw a b lktp l r dir z
    exact ⟨fun hc => absurd hc (by simp), trivial⟩
  | cons c rest ih =>
    intro lw a b lktp l r dir z
    cases c with
    | false =>
      cases r with
      | nil =>
        rw [updAux_cons_right_nil]
        exact ⟨fun hc => absurd hc (by simp),
               allNew_tailNew _ (updAux_allNew rest false z)⟩
      | node rlw ra rb rk rl rr =>
        rw [updAux_cons_right_node]
        exact ⟨fun hc => absurd hc (by simp), ih rlw ra rb rk rl rr false z⟩
    | true =>
      cases l with
      | nil =>
        rw [updAux_cons_left_nil]
        exact ⟨fun hc => absurd hc (by simp),
               allNew_tailNew _ (updAux_allNew rest true z)⟩
      | node llw la lb lk ll lr =>
        rw [updAux_cons_left_node]
        exact ⟨fun hc => absurd hc (by simp), ih llw la lb lk ll lr true z⟩

/-! ### Claims C1, C2, C5, C9 -/

/-- Claim C1: for every tree, every context bit-sequence and every new
bit, calling `revert` on the snapshot list returned by `update`
restores the tree bit-exactly: all touched nodes get their saved
`(A, B, Lktp, LogProb)` back and every node allocated by the update is
detached, so the resulting tree — reachable nodes and parent-child
pointers included — equals the pre-update tree. -/
theorem claim1_revert_restores (t : treeNode) (bits : List Bool) (z : Bool) :
    revert (update t bits z).1 (update t bits z).2 = t :=
  revert_update t bits z

/-- Claim C2: for every reverter state with a nonempty context window,
a sequence of N `Observe` calls followed by N `Unobserve` calls leaves
the wrapped CTW model — tree and context window — bit-identical to its
pre-sequence state. -/
theorem claim2_reverter_roundtrip (cr : CTWReverter) (obs : List Bool)
    (h : cr.model.Bits ≠ []) :
    (CTWReverter.Unobserve^[obs.length] (obs.foldl CTWReverter.Observe cr)).model
      = cr.model := by
  rw [reverter_roundtrip obs cr h]

/-- Witness for C2 at a concrete reverter over a fresh depth-1 model
and one speculative observation. -/
theorem claim2_witness :
    (NewCTWReverter (NewCTW [false])).model.Bits ≠ [] ∧
    (CTWReverter.Unobserve^[[true].length]
        ([true].foldl CTWReverter.Observe (NewCTWReverter (NewCTW [false])))).model
      = (NewCTWReverter (NewCTW [false])).model :=
  ⟨by decide, claim2_reverter_roundtrip (NewCTWReverter (NewCTW [false])) [true] (by decide)⟩

/-- Claim C5: `Prob0` leaves the model's observable state — every tree
node and the context window — unchanged, and an `Observe` after a
`Prob0` yields the same state as a standalone `Observe`. -/
theorem claim5_prob0_pure (m : CTW) (b : Bool) :
    (m.Prob0).2 = m ∧ ((m.Prob0).2).Observe b = m.Observe b := by
  have h : (m.Prob0).2 = m := by
    show (⟨m.Bits, revert (update m.Root m.Bits false).1 (update m.Root m.Bits false).2⟩ : CTW) = m
    rw [revert_update]
  exact ⟨h, by rw [h]⟩

/-- Claim C9: in every snapshot list returned by `update` the `isNew`
marks form a contiguous tail: if the snapshot at position `i` is marked
`isNew`, so is every snapshot at a later position. -/
theorem claim9_isnew_tail (t : treeNode) (bits : List Bool) (z : Bool) :
    newTailIdx (update t bits z).2 := by
  cases t with
  | nil =>
    have hnil : (update treeNode.nil bits z).2 = [] := by
      unfold update
      cases bits.reverse <;> rfl
    rw [hnil]
    intro i j hi
    simp at hi
  | node lw a b lktp l r =>
    exact tailNew_newTailIdx _ (updAux_tailNew bits.reverse lw a b lktp l r false z)

/-- Witness for C9 at a concrete update that allocates a node. -/
theorem claim9_witness : newTailIdx (update newNode [false] false).2 :=
  claim9_isnew_tail newNode [false] false

/-! ### The weighting invariant -/

/-- The weighting invariant: a childless node has `LogProb = Lktp`, a
node with at least one child has
`LogProb = logaddexp (log ½ + Lktp) (log ½ + lp + rp)` where `lp`/`rp`
are the children's `LogProb` values and an absent child contributes
`0`; and the same holds in every subtree. -/
def Wf : treeNode → Prop
  | treeNode.nil => True
  | treeNode.node lw _ _ lktp l r =>
    (lw = if !l.isNil || !r.isNil then
        logaddexp (Real.log 0.5 + lktp) (Real.log (1 - 0.5) + l.LogProb + r.LogProb)
      else lktp)
    ∧ Wf l ∧ Wf r

theorem Wf_newNode : Wf newNode := ⟨by simp [treeNode.isNil], trivial, trivial⟩

/-- Recomputing a node's `LogProb` establishes the invariant at that
node, whatever the previous value was. -/
theorem Wf_recompute (lw : ℝ) (a b : ℕ) (lktp : ℝ) (l r : treeNode)
    (hl : Wf l) (hr : Wf r) : Wf (recompute (treeNode.node lw a b lktp l r)) := by
  simp only [recompute]
  split
  case isTrue h => exact ⟨by rw [if_pos h], hl, hr⟩
  case isFalse h => exact ⟨by rw [if_neg h], hl, hr⟩

/-- The ascend phase of `update` re-establishes the weighting
invariant everywhere: off-path subtrees are untouched, path nodes are
recomputed after their updated child. -/
theorem updAux_Wf (ctx : List Bool) :
    ∀ (lw : ℝ) (a b : ℕ) (lktp : ℝ) (l r : treeNode) (dir f z : Bool),
      Wf (treeNode.node lw a b lktp l r) →
      Wf (updAux (treeNode.node lw a b lktp l r) dir f ctx z).1 := by
  induction ctx with
  | nil =>
    intro lw a b lktp l r dir f z h
    cases z
    · show Wf (recompute (treeNode.node lw (a + 1) b
        (lktp + Real.log ((a : ℝ) + 0.5) - Real.log ((a : ℝ) + (b : ℝ) + 1)) l r))
      exact Wf_recompute _ _ _ _ _ _ h.2.1 h.2.2
    · show Wf (recompute (treeNode.node lw a (b + 1)
        (lktp + Real.log ((b : ℝ) + 0.5) - Real.log ((a : ℝ) + (b : ℝ) + 1)) l r))
      exact Wf_recompute _ _ _ _ _ _ h.2.1 h.2.2
  | cons c rest ih =>
    intro lw a b lktp l r dir f z h
    cases c
    · cases r with
      | nil =>
        have hchild := ih 0 0 0 0 treeNode.nil treeNode.nil false true z Wf_newNode
        cases z
        · show Wf (recompute (treeNode.node lw (a + 1) b
            (lktp + Real.log ((a : ℝ) + 0.5) - Real.log ((a : ℝ) + (b : ℝ) + 1)) l
            (updAux newNode false true rest false).1))
          exact Wf_recompute _ _ _ _ _ _ h.2.1 hchild
        · show Wf (recompute (treeNode.node lw a (b + 1)
            (lktp + Real.log ((b : ℝ) + 0.5) - Real.log ((a : ℝ) + (b : ℝ) + 1)) l
            (updAux newNode false true rest true).1))
          exact Wf_recompute _ _ _ _ _ _ h.2.1 hchild
      | node rlw ra rb rk rl rr =>
        have hchild := ih rlw ra rb rk rl rr false false z h.2.2
        cases z
        · show Wf (recompute (treeNode.node lw (a + 1) b
            (lktp + Real.log ((a : ℝ) + 0.5) - Real.log ((a : ℝ) + (b : ℝ) + 1)) l
            (updAux (treeNode.node rlw ra rb rk rl rr) false false rest false).1))
          exact Wf_recompute _ _ _ _ _ _ h.2.1 hchild
        · show Wf (recompute (treeNode.node lw a (b + 1)
            (lktp + Real.log ((b : ℝ) + 0.5) - Real.log ((a : ℝ) + (b : ℝ) + 1)) l
            (updAux (treeNode.node rlw ra rb rk rl rr) false false rest true).1))
          exact Wf_recompute _ _ _ _ _ _ h.2.1 hchild
    · cases l with
      | nil =>
        have hchild := ih 0 0 0 0 treeNode.nil treeNode.nil true true z Wf_newNode
        cases z
        · show Wf (recompute (treeNode.node lw (a + 1) b
            (lktp + Real.log ((a : ℝ) + 0.5) - Real.log ((a : ℝ) + (b : ℝ) + 1))
            (updAux newNode true true rest false).1 r))
          exact Wf_recompute _ _ _ _ _ _ hchild h.2.2
        · show Wf (recompute (treeNode.node lw a (b + 1)
            (lktp + Real.log ((b : ℝ) + 0.5) - Real.log ((a : ℝ) + (b : ℝ) + 1))
            (updAux newNode true true rest true).1 r))
          exact Wf_recompute _ _ _ _ _ _ hchild h.2.2
      | node llw la lb lk ll lr =>
        have hchild := ih llw la lb lk ll lr true false z h.2.1
        cases z
        · show Wf (recompute (treeNode.node lw (a + 1) b
            (lktp + Real.log ((a : ℝ) + 0.5) - Real.log ((a : ℝ) + (b : ℝ) + 1))
            (updAux (treeNode.node llw la lb lk ll lr) true false rest false).1 r))
          exact Wf_recompute _ _ _ _ _ _ hchild h.2.2
        · show Wf (recompute (treeNode.node lw a (b + 1)
            (lktp + Real.log ((b : ℝ) + 0.5) - Real.log ((a : ℝ) + (b : ℝ) + 1))
            (updAux (treeNode.node llw la lb lk ll lr) true false rest true).1 r))
          exact Wf_recompute _ _ _ _ _ _ hchild h.2.2

/-- The weighting invariant is preserved by every `update`. -/
theorem update_Wf (t : treeNode) (bits : List Bool) (z : Bool) (h : Wf t) :
    Wf (update t bits z).1 := by
  cases t with
  | nil =>
    unfold update
    cases bits.reverse <;> trivial
  | node lw a b lktp l r => exact updAux_Wf bits.reverse lw a b lktp l r false false z h

/-- Claim C7: starting from a tree satisfying the weighting invariant,
after every `update` — and hence after every `Observe` and after every
completed `Prob0` — every reachable node still satisfies it: leaves
have `LogProb = Lktp`, nodes with at least one child have
`LogProb = logaddexp (log ½ + Lktp) (log ½ + lp + rp)` with absent
children contributing `0`. -/
theorem claim7_weighting_invariant (t : treeNode) (bits : List Bool) (z : Bool)
    (m : CTW) (h : Wf t) (hm : Wf m.Root) :
    Wf (update t bits z).1 ∧ Wf ((m.Observe z).Root) ∧ Wf (((m.Prob0).2).Root) := by
  refine ⟨update_Wf t bits z h, update_Wf m.Root m.Bits z hm, ?_⟩
  show Wf (revert (update m.Root m.Bits false).1 (update m.Root m.Bits false).2)
  rw [revert_update]
  exact hm

/-- Witness for C7: the invariant holds for a fresh model and is kept
by an update at depth 1. -/
theorem claim7_witness :
    Wf (update newNode [false] false).1 ∧ Wf (((NewCTW [true]).Observe false).Root)
      ∧ Wf ((((NewCTW [true]).Prob0).2).Root) :=
  claim7_weighting_invariant newNode [false] false (NewCTW [true]) Wf_newNode Wf_newNode

/-! ### FCTW: the shared window advances once per tree -/

/-- The shared context window after `n` of the per-tree `observe`
calls of one `FCTW.Observe`. -/
def shiftIter : ℕ → List Bool → Bool → List Bool
  | 0, bits, _ => bits
  | n + 1, bits, b => shiftIter n (shiftWindow bits b) b

/-- The trees produced by the `FCTW.Observe` loop: the `i`-th tree is
updated against the window as already shifted by the first `i` calls. -/
def obsList (bit : Bool) : List treeNode → List Bool → List treeNode
  | [], _ => []
  | root :: roots, bits =>
      (update root bits bit).1 :: obsList bit roots (shiftWindow bits bit)

theorem foldl_observeStep (bit : Bool) :
    ∀ (roots : List treeNode) (bits : List Bool) (acc : List treeNode),
      roots.foldl (observeStep bit) (bits, acc)
        = (shiftIter roots.length bits bit, acc ++ obsList bit roots bits) := by
  intro roots
  induction roots with
  | nil => intro bits acc; simp [shiftIter, obsList]
  | cons root roots ih =>
    intro bits acc
    rw [List.foldl_cons]
    show roots.foldl (observeStep bit) (shiftWindow bits bit, acc ++ [(update root bits bit).1])
      = _
    rw [ih]
    simp [shiftIter, obsList]

theorem obsList_length (bit : Bool) :
    ∀ (roots : List treeNode) (bits : List Bool),
      (obsList bit roots bits).length = roots.length := by
  intro roots
  induction roots with
  | nil => intro bits; rfl
  | cons root roots ih => intro bits; simp [obsList, ih]

theorem obsList_getD (bit : Bool) :
    ∀ (roots : List treeNode) (bits : List Bool) (i : ℕ), i < roots.length →
      (obsList bit roots bits).getD i treeNode.nil
        = (update (roots.getD i treeNode.nil) (shiftIter i bits bit) bit).1 := by
  intro roots
  induction roots with
  | nil => intro bits i hi; simp at hi
  | cons root roots ih =>
    intro bits i hi
    cases i with
    | zero => rfl
    | succ i' =>
      show (obsList bit roots (shiftWindow bits bit)).getD i' treeNode.nil = _
      rw [ih (shiftWindow bits bit) i' (by simpa using hi)]
      rfl

/-- Counterexample to C3 as stated: for a two-tree FCTW over a 2-bit
window, `Observe(1)` leaves the shared window `[1, 1]`, not the
single-step shift `[0, 1]` the claim demands — every per-tree `observe`
call shifts the one shared window. -/
theorem claim3_counterexample :
    ((NewFCTW 2 [false, false]).Observe true).Bits
      ≠ shiftWindow [false, false] true := by
  decide

/-- Claim C3 (amended): `FCTW.Observe(bit)` updates every one of the
trees — the `i`-th against the shared window as already shifted by the
`i` preceding per-tree calls — and sets `Index` to
`(Index + 1) % Block_len`; afterwards the shared window is the previous
window advanced by one position per tree (`Trees.length` positions in
total), not by exactly one position. -/
theorem claim3_amended (m : FCTW) (bit : Bool) (i : ℕ) (hi : i < m.Trees.length) :
    (m.Observe bit).Index = (m.Index + 1) % m.Block_len
    ∧ (m.Observe bit).Bits = shiftIter m.Trees.length m.Bits bit
    ∧ (m.Observe bit).Trees.length = m.Trees.length
    ∧ (m.Observe bit).Trees.getD i treeNode.nil
        = (update (m.Trees.getD i treeNode.nil) (shiftIter i m.Bits bit) bit).1 := by
  have hfold := foldl_observeStep bit m.Trees m.Bits []
  refine ⟨rfl, ?_, ?_, ?_⟩
  · show (m.Trees.foldl (observeStep bit) (m.Bits, [])).1 = _
    rw [hfold]
  · show (m.Trees.foldl (observeStep bit) (m.Bits, [])).2.length = _
    rw [hfold]
    simpa using obsList_length bit m.Trees m.Bits
  · show (m.Trees.foldl (observeStep bit) (m.Bits, [])).2.getD i treeNode.nil = _
    rw [hfold]
    simpa using obsList_getD bit m.Trees m.Bits i hi

/-- Witness for the amended C3 on a concrete two-tree FCTW. -/
theorem claim3_witness :
    ((NewFCTW 2 [false, false]).Observe true).Index = (0 + 1) % 2
    ∧ ((NewFCTW 2 [false, false]).Observe true).Bits = shiftIter 2 [false, false] true
    ∧ ((NewFCTW 2 [false, false]).Observe true).Trees.length = 2
    ∧ ((NewFCTW 2 [false, false]).Observe true).Trees.getD 0 treeNode.nil
        = (update ((NewFCTW 2 [false, false]).Trees.getD 0 treeNode.nil)
            (shiftIter 0 [false, false] true) true).1 :=
  claim3_amended (NewFCTW 2 [false, false]) true 0 (by decide)

/-! ### Context-tree maximization -/

/-- One-step unfolding of the conversion at a non-nil node. -/
theorem ToVOMNode_node (lw : ℝ) (a b : ℕ) (lktp : ℝ) (l r : treeNode) :
    ToVOMNode (treeNode.node lw a b lktp l r)
      = if l.isNil && r.isNil then
          VOMNode.node true (((a : ℝ) + 0.5) / ((a : ℝ) + (b : ℝ) + 1.0)) lktp
            VOMNode.nil VOMNode.nil
        else if lktp ≥ (ToVOMNode l).MaxLogProb + (ToVOMNode r).MaxLogProb then
          VOMNode.node true (((a : ℝ) + 0.5) / ((a : ℝ) + (b : ℝ) + 1.0)) lktp
            VOMNode.nil VOMNode.nil
        else
          VOMNode.node false (-1.0) ((ToVOMNode l).MaxLogProb + (ToVOMNode r).MaxLogProb)
            (if r.isNil then defaultVOMLeaf else ToVOMNode r)
            (if l.isNil then defaultVOMLeaf else ToVOMNode l) := rfl

/-- The `ktp` value a collapse stores in a leaf:
`(a + 0.5) / (a + b + 1)`. -/
def ktProb (t : treeNode) : ℝ := ((t.A : ℝ) + 0.5) / ((t.A : ℝ) + (t.B : ℝ) + 1.0)

/-- The `mlp` of the conversion: `MaxLogProb` of the converted `Left`
child, `0` when it is absent. -/
def mlOf (t : treeNode) : ℝ :=
  if t.Left.isNil then 0 else (ToVOMNode t.Left).MaxLogProb

/-- The `mrp` of the conversion: `MaxLogProb` of the converted `Right`
child, `0` when it is absent. -/
def mrOf (t : treeNode) : ℝ :=
  if t.Right.isNil then 0 else (ToVOMNode t.Right).MaxLogProb

theorem mlOf_eq (lw : ℝ) (a b : ℕ) (lktp : ℝ) (l r : treeNode) :
    mlOf (treeNode.node lw a b lktp l r) = (ToVOMNode l).MaxLogProb := by
  cases l
  · rfl
  · rfl

theorem mrOf_eq (lw : ℝ) (a b : ℕ) (lktp : ℝ) (l r : treeNode) :
    mrOf (treeNode.node lw a b lktp l r) = (ToVOMNode r).MaxLogProb := by
  cases r
  · rfl
  · rfl

/-- Counterexample to C4 as stated: a terminal CTW node with
`Lktp = -1 < 0` is converted to a leaf with `MaxLogProb = Lktp = -1`,
not `max (Lktp) (0 + 0) = 0` — the conversion never compares a
terminal node's `Lktp` against the absent children's contribution. -/
theorem claim4_counterexample :
    (ToVOMNode (treeNode.node 0 1 0 (-1) treeNode.nil treeNode.nil)).MaxLogProb
      ≠ max (treeNode.node 0 1 0 (-1) treeNode.nil treeNode.nil).Lktp
          (mlOf (treeNode.node 0 1 0 (-1) treeNode.nil treeNode.nil)
            + mrOf (treeNode.node 0 1 0 (-1) treeNode.nil treeNode.nil)) := by
  show (-1 : ℝ) ≠ max (-1 : ℝ) (0 + 0)
  rw [show ((0 : ℝ) + 0) = 0 by ring, max_eq_right (by norm_num : (-1 : ℝ) ≤ 0)]
  norm_num

/-- Claim C4 (amended): a CTW node with at least one child satisfies
`MaxLogProb = max Lktp (mlp + mrp)` (absent children contributing `0`),
collapses to a leaf exactly when `mlp + mrp ≤ Lktp`, the leaf carries
`CondProb0 = (a + 0.5)/(a + b + 1)` and `MaxLogProb = Lktp`, and the
internal node carries `MaxLogProb = mlp + mrp`.  A node with no
children is always converted to a leaf with that `CondProb0` and
`MaxLogProb = Lktp`, even when `Lktp < 0 = mlp + mrp`. -/
theorem claim4_amended (t : treeNode) (h : t.isNil = false) :
    ((t.Left.isNil && t.Right.isNil) = true →
        ToVOMNode t = VOMNode.node true (ktProb t) t.Lktp VOMNode.nil VOMNode.nil)
    ∧ ((t.Left.isNil && t.Right.isNil) = false →
        (ToVOMNode t).MaxLogProb = max t.Lktp (mlOf t + mrOf t)
        ∧ ((ToVOMNode t).Leaf = true ↔ mlOf t + mrOf t ≤ t.Lktp)
        ∧ ((ToVOMNode t).Leaf = true →
            (ToVOMNode t).CondProb0 = ktProb t ∧ (ToVOMNode t).MaxLogProb = t.Lktp)
        ∧ ((ToVOMNode t).Leaf = false →
            (ToVOMNode t).MaxLogProb = mlOf t + mrOf t)) := by
  cases t with
  | nil => simp [treeNode.isNil] at h
  | node lw a b lktp l r =>
    constructor
    · intro hc
      simp only [treeNode.Left, treeNode.Right] at hc
      rw [ToVOMNode_node, if_pos hc]
      rfl
    · intro hc
      simp only [treeNode.Left, treeNode.Right] at hc
      rw [ToVOMNode_node, if_neg (by simp [hc]), mlOf_eq, mrOf_eq]
      by_cases hge : lktp ≥ (ToVOMNode l).MaxLogProb + (ToVOMNode r).MaxLogProb
      · rw [if_pos hge]
        refine ⟨?_, ?_, fun _ => ⟨rfl, rfl⟩, ?_⟩
        · show lktp = max lktp _
          rw [max_eq_left hge]
        · exact iff_of_true rfl hge
        · intro hf
          exact absurd hf (by simp [VOMNode.Leaf])
      · rw [if_neg hge]
        push_neg at hge
        refine ⟨?_, ?_, ?_, fun _ => rfl⟩
        · show (ToVOMNode l).MaxLogProb + (ToVOMNode r).MaxLogProb = max lktp _
          rw [max_eq_right (le_of_lt hge)]
        · exact iff_of_false (by simp [VOMNode.Leaf]) (not_le.mpr hge)
        · intro hf
          exact absurd hf (by simp [VOMNode.Leaf])

/-- Witness for the amended C4 at a node with one (fresh) child. -/
theorem claim4_witness :
    (ToVOMNode (treeNode.node 0 0 0 0 newNode treeNode.nil)).MaxLogProb
      = max (treeNode.node 0 0 0 0 newNode treeNode.nil).Lktp
          (mlOf (treeNode.node 0 0 0 0 newNode treeNode.nil)
            + mrOf (treeNode.node 0 0 0 0 newNode treeNode.nil)) :=
  ((claim4_amended (treeNode.node 0 0 0 0 newNode treeNode.nil) rfl).2 rfl).1

/-! ### VOM prediction -/

/-- The descent as the spec words it: consume the reversed window (the
context most-recent-first) front to back, return `CondProb0` of the
first leaf encountered, or of the node reached when the window is
exhausted (depth D). -/
def specDescend : VOMNode → List Bool → ℝ
  | n, [] => n.CondProb0
  | n, c :: rest => if n.Leaf then n.CondProb0 else specDescend (vchildAt n c) rest

/-- The node at which the descent stops. -/
def vomStopNode : VOMNode → List Bool → VOMNode
  | n, [] => n
  | n, c :: rest => if n.Leaf then n else vomStopNode (vchildAt n c) rest

theorem specDescend_cons (n : VOMNode) (c : Bool) (rest : List Bool) :
    specDescend n (c :: rest)
      = if n.Leaf then n.CondProb0 else specDescend (vchildAt n c) rest := rfl

theorem vomStopNode_cons (n : VOMNode) (c : Bool) (rest : List Bool) :
    vomStopNode n (c :: rest)
      = if n.Leaf then n else vomStopNode (vchildAt n c) rest := rfl

theorem specDescend_stopNode : ∀ (ctx : List Bool) (n : VOMNode),
    specDescend n ctx = (vomStopNode n ctx).CondProb0 := by
  intro ctx
  induction ctx with
  | nil => intro n; rfl
  | cons c rest ih =>
    intro n
    rw [specDescend_cons, vomStopNode_cons]
    by_cases h : n.Leaf = true
    · rw [if_pos h, if_pos h]
    · rw [if_neg h, if_neg h, ih]

/-- The indexed loop of `VOM.Prob0` computes the reverse-consuming
descent: at step `d` the loop reads `Bits[len-d-1]`, the `d`-th entry
of the reversed window. -/
theorem vomLoop_eq_specDescend (bits : List Bool) :
    ∀ (fuel d : ℕ) (n : VOMNode), d + fuel = bits.length →
      vomLoop bits fuel n d = specDescend n (bits.reverse.drop d) := by
  intro fuel
  induction fuel with
  | zero =>
    intro d n h
    have hdrop : bits.reverse.drop d = [] :=
      List.drop_eq_nil_of_le (by simpa using le_of_eq h.symm)
    rw [hdrop]
    rfl
  | succ fuel ih =>
    intro d n h
    have hd : d < bits.length := by omega
    have h1 : d < bits.reverse.length := by simpa using hd
    have hdrop : bits.reverse.drop d = bits.reverse[d] :: bits.reverse.drop (d + 1) :=
      (List.getElem_cons_drop bits.reverse d h1).symm
    have hlt : bits.length - d - 1 < bits.length := by omega
    have hgetD : bits.getD (bits.length - d - 1) false = bits.reverse[d] := by
      rw [List.getElem_reverse, List.getD_eq_getElem?_getD,
          List.getElem?_eq_getElem hlt]
      have h2 : bits.length - 1 - d = bits.length - d - 1 := by omega
      simp [h2]
    rw [hdrop, specDescend_cons]
    show (if n.Leaf then n.CondProb0
        else vomLoop bits fuel (vchildAt n (bits.getD (bits.length - d - 1) false)) (d + 1)) = _
    by_cases hn : n.Leaf = true
    · rw [if_pos hn, if_pos hn]
    · rw [if_neg hn, if_neg hn, hgetD, ih (d + 1) _ (by omega)]

/-- `VOM.Prob0` is the reverse-consuming descent from the root. -/
theorem Prob0_eq_specDescend (m : VOM) :
    m.Prob0 = specDescend m.Root m.Bits.reverse := by
  have h := vomLoop_eq_specDescend m.Bits m.Bits.length 0 m.Root (by omega)
  simpa using h

theorem ToVOMNode_isNil (t : treeNode) : (ToVOMNode t).isNil = t.isNil := by
  cases t with
  | nil => rfl
  | node lw a b lktp l r =>
    rw [ToVOMNode_node]
    split
    · rfl
    · split <;> rfl

/-- Orientation of the converted children: for an internal conversion
result, the child `VOM.Prob0` routes to on context bit `c` is the
conversion of the CTW child `update` descends into on `c` (`Right` for
bit 0), with an absent CTW child replaced by the default leaf. -/
theorem vom_child_orientation (t : treeNode) (c : Bool) (ht : t.isNil = false)
    (h : (ToVOMNode t).Leaf = false) :
    vchildAt (ToVOMNode t) c
      = (if (childAt t c).isNil then defaultVOMLeaf else ToVOMNode (childAt t c)) := by
  cases t with
  | nil => simp [treeNode.isNil] at ht
  | node lw a b lktp l r =>
    rw [ToVOMNode_node] at h ⊢
    by_cases h1 : (l.isNil && r.isNil) = true
    · rw [if_pos h1] at h
      simp [VOMNode.Leaf] at h
    · rw [if_neg h1] at h ⊢
      by_cases h2 : lktp ≥ (ToVOMNode l).MaxLogProb + (ToVOMNode r).MaxLogProb
      · rw [if_pos h2] at h
        simp [VOMNode.Leaf] at h
      · rw [if_neg h2]
        cases c
        · rfl
        · rfl

/-- Claim C8: `VOM.Prob0` descends from the root consuming the context
bits most-recent-first, returning `CondProb0` of the first leaf
encountered or of the node reached at depth D, and it routes context
bit 0 into `Child0`, which is the conversion of the CTW child reached
on context bit 0 (`Right`) — the orientation `update` uses when
routing. -/
theorem claim8_vom_descent (m : VOM) (t : treeNode) (c : Bool)
    (ht : t.isNil = false) (h : (ToVOMNode t).Leaf = false) :
    m.Prob0 = specDescend m.Root m.Bits.reverse
    ∧ vchildAt (ToVOMNode t) c
        = (if (childAt t c).isNil then defaultVOMLeaf else ToVOMNode (childAt t c)) :=
  ⟨Prob0_eq_specDescend m, vom_child_orientation t c ht h⟩

/-- Witness for C8 at a concrete VOM and a concrete internal
conversion. -/
theorem claim8_witness :
    (NewVOM [false]).Prob0 = specDescend (NewVOM [false]).Root [false].reverse
    ∧ vchildAt (ToVOMNode (treeNode.node 0 0 0 (-1) newNode treeNode.nil)) false
        = (if (childAt (treeNode.node 0 0 0 (-1) newNode treeNode.nil) false).isNil
           then defaultVOMLeaf
           else ToVOMNode (childAt (treeNode.node 0 0 0 (-1) newNode treeNode.nil) false)) :=
  claim8_vom_descent (NewVOM [false]) (treeNode.node 0 0 0 (-1) newNode treeNode.nil) false
    rfl
    (by
      have hge : ¬((-1 : ℝ) ≥ (ToVOMNode newNode).MaxLogProb
          + (ToVOMNode treeNode.nil).MaxLogProb) := by
        have h1 : (ToVOMNode newNode).MaxLogProb = 0 := rfl
        have h2 : (ToVOMNode treeNode.nil).MaxLogProb = 0 := rfl
        rw [h1, h2]
        norm_num
      rw [ToVOMNode_node, if_neg (by simp [newNode, treeNode.isNil]), if_neg hge]
      rfl)

/-! ### VOM totality -/

/-- Depth bound of a CTW tree: below `k` remaining levels every node
at level `k` is childless.  States reachable with a `k`-bit context
window satisfy this, since `update` descends exactly `k` levels and
never gives children to the deepest visited node. -/
def Bounded : ℕ → treeNode → Prop
  | _, treeNode.nil => True
  | 0, treeNode.node _ _ _ _ l r => l.isNil = true ∧ r.isNil = true
  | k + 1, treeNode.node _ _ _ _ l r => Bounded k l ∧ Bounded k r

/-- Structural soundness of a converted VOM subtree with `k` context
bits left to consume: every leaf carries a positive `CondProb0`, every
internal node has non-nil children that are again sound, and when no
bits are left the node is a leaf. -/
def VOMOk : ℕ → VOMNode → Prop
  | 0, n => n.Leaf = true ∧ 0 < n.CondProb0
  | k + 1, n => (n.Leaf = true → 0 < n.CondProb0)
      ∧ (n.Leaf = false → n.Child0.isNil = false ∧ n.Child1.isNil = false
          ∧ VOMOk k n.Child0 ∧ VOMOk k n.Child1)

theorem ktProb_pos (a b : ℕ) : 0 < ((a : ℝ) + 0.5) / ((a : ℝ) + (b : ℝ) + 1.0) := by
  apply div_pos <;> positivity

theorem VOMOk_defaultVOMLeaf : ∀ k, VOMOk k defaultVOMLeaf := by
  intro k
  cases k with
  | zero => exact ⟨rfl, by norm_num [defaultVOMLeaf, VOMNode.CondProb0]⟩
  | succ k =>
    refine ⟨fun _ => by norm_num [defaultVOMLeaf, VOMNode.CondProb0], fun hf => ?_⟩
    simp [defaultVOMLeaf, VOMNode.Leaf] at hf

/-- Conversion of a non-nil tree bounded at depth `k` yields a sound
VOM subtree for `k` context bits. -/
theorem ToVOMNode_ok : ∀ (k : ℕ) (t : treeNode), t.isNil = false → Bounded k t →
    VOMOk k (ToVOMNode t) := by
  intro k
  induction k with
  | zero =>
    intro t ht hb
    cases t with
    | nil => simp [treeNode.isNil] at ht
    | node lw a b lktp l r =>
      rw [ToVOMNode_node, if_pos (by simp [hb.1, hb.2])]
      exact ⟨rfl, ktProb_pos a b⟩
  | succ k ih =>
    intro t ht hb
    cases t with
    | nil => simp [treeNode.isNil] at ht
    | node lw a b lktp l r =>
      rw [ToVOMNode_node]
      by_cases h1 : (l.isNil && r.isNil) = true
      · rw [if_pos h1]
        exact ⟨fun _ => ktProb_pos a b, fun hf => by simp [VOMNode.Leaf] at hf⟩
      · rw [if_neg h1]
        by_cases h2 : lktp ≥ (ToVOMNode l).MaxLogProb + (ToVOMNode r).MaxLogProb
        · rw [if_pos h2]
          exact ⟨fun _ => ktProb_pos a b, fun hf => by simp [VOMNode.Leaf] at hf⟩
        · rw [if_neg h2]
          refine ⟨fun hf => by simp [VOMNode.Leaf] at hf, fun _ => ?_⟩
          have hc0 : VOMNode.isNil (if r.isNil then defaultVOMLeaf else ToVOMNode r) = false := by
            cases r
            · rfl
            · rw [if_neg (by simp [treeNode.isNil])]
              rw [ToVOMNode_isNil]
              rfl
          have hc1 : VOMNode.isNil (if l.isNil then defaultVOMLeaf else ToVOMNode l) = false := by
            cases l
            · rfl
            · rw [if_neg (by simp [treeNode.isNil])]
              rw [ToVOMNode_isNil]
              rfl
          have hk0 : VOMOk k (if r.isNil then defaultVOMLeaf else ToVOMNode r) := by
            cases r
            · exact VOMOk_defaultVOMLeaf k
            · rw [if_neg (by simp [treeNode.isNil])]
              exact ih _ rfl hb.2
          have hk1 : VOMOk k (if l.isNil then defaultVOMLeaf else ToVOMNode l) := by
            cases l
            · exact VOMOk_defaultVOMLeaf k
            · rw [if_neg (by simp [treeNode.isNil])]
              exact ih _ rfl hb.1
          exact ⟨hc0, hc1, hk0, hk1⟩

/-- On a sound subtree, the descent stops at a leaf with positive
`CondProb0`. -/
theorem vomStopNode_ok : ∀ (ctx : List Bool) (n : VOMNode), VOMOk ctx.length n →
    (vomStopNode n ctx).Leaf = true ∧ 0 < (vomStopNode n ctx).CondProb0 := by
  intro ctx
  induction ctx with
  | nil => intro n h; exact ⟨h.1, h.2⟩
  | cons c rest ih =>
    intro n h
    rw [vomStopNode_cons]
    by_cases hn : n.Leaf = true
    · rw [if_pos hn]
      exact ⟨hn, h.1 hn⟩
    · rw [if_neg hn]
      have hnf : n.Leaf = false := by
        cases hLeaf : n.Leaf
        · rfl
        · exact absurd hLeaf hn
      obtain ⟨_, _, hk0, hk1⟩ := h.2 hnf
      have hok : VOMOk rest.length (vchildAt n c) := by
        cases c
        · exact hk0
        · exact hk1
      exact ih _ hok

/-- Claim C10: for every CTW whose tree respects the depth bound of
its context window, the derived VOM's `Prob0` stops at a leaf — no nil
child is ever dereferenced, internal nodes occur only above depth D —
and returns that leaf's `CondProb0`, which is positive, so the
internal-node placeholder `-1.0` is never returned. -/
theorem claim10_vom_total (m : CTW) (h1 : m.Root.isNil = false)
    (h2 : Bounded m.Bits.length m.Root) :
    (vomStopNode (ToVOM m).Root (ToVOM m).Bits.reverse).Leaf = true
    ∧ (ToVOM m).Prob0 = (vomStopNode (ToVOM m).Root (ToVOM m).Bits.reverse).CondProb0
    ∧ 0 < (ToVOM m).Prob0 := by
  have hok : VOMOk m.Bits.reverse.length (ToVOMNode m.Root) := by
    rw [List.length_reverse]
    exact ToVOMNode_ok m.Bits.length m.Root h1 h2
  have hstop := vomStopNode_ok m.Bits.reverse (ToVOMNode m.Root) hok
  have heq : (ToVOM m).Prob0 = (vomStopNode (ToVOMNode m.Root) m.Bits.reverse).CondProb0 := by
    rw [Prob0_eq_specDescend]
    exact specDescend_stopNode _ _
  exact ⟨hstop.1, heq, by rw [heq]; exact hstop.2⟩

/-- Witness for C10 on a fresh depth-1 model. -/
theorem claim10_witness :
    (vomStopNode (ToVOM (NewCTW [false])).Root (ToVOM (NewCTW [false])).Bits.reverse).Leaf = true
    ∧ (ToVOM (NewCTW [false])).Prob0
        = (vomStopNode (ToVOM (NewCTW [false])).Root
            (ToVOM (NewCTW [false])).Bits.reverse).CondProb0
    ∧ 0 < (ToVOM (NewCTW [false])).Prob0 :=
  claim10_vom_total (NewCTW [false]) rfl ⟨trivial, trivial⟩

/-! ### Normalization -/

theorem eq_nil_of_isNil (t : treeNode) (h : t.isNil = true) : t = treeNode.nil := by
  cases t
  · rfl
  · simp [treeNode.isNil] at h

/-- Depth-indexed strengthening of the weighting invariant that holds
for every reachable state: at depth D (`k = 0`) a node is childless
with `LogProb = Lktp`; above depth D a childless node has never been
updated (`LogProb = Lktp = 0`), because every update that touches a
node at depth `< D` also materializes that node's on-path child; a node
with a child satisfies the mixing equation. -/
def WfN : ℕ → treeNode → Prop
  | 0, treeNode.nil => True
  | 0, treeNode.node lw _ _ lktp l r => l.isNil = true ∧ r.isNil = true ∧ lw = lktp
  | _ + 1, treeNode.nil => True
  | k + 1, treeNode.node lw _ _ lktp l r =>
      if l.isNil && r.isNil then lw = lktp ∧ lktp = 0
      else lw = logaddexp (Real.log 0.5 + lktp)
             (Real.log (1 - 0.5) + l.LogProb + r.LogProb)
           ∧ WfN k l ∧ WfN k r

theorem WfN_nil : ∀ k, WfN k treeNode.nil := by
  intro k
  cases k <;> trivial

theorem WfN_newNode : ∀ k, WfN k newNode := by
  intro k
  cases k with
  | zero => exact ⟨rfl, rfl, rfl⟩
  | succ k => simp [WfN, newNode, treeNode.isNil]

theorem WfN_children (k : ℕ) (lw : ℝ) (a b : ℕ) (lktp : ℝ) (l r : treeNode)
    (h : WfN (k + 1) (treeNode.node lw a b lktp l r)) : WfN k l ∧ WfN k r := by
  by_cases hc : (l.isNil && r.isNil) = true
  · simp only [Bool.and_eq_true] at hc
    rw [eq_nil_of_isNil l hc.1, eq_nil_of_isNil r hc.2]
    exact ⟨WfN_nil k, WfN_nil k⟩
  · simp only [WfN] at h
    rw [if_neg hc] at h
    exact ⟨h.2.1, h.2.2⟩

theorem WfN_recompute_leaf (lw : ℝ) (a b : ℕ) (lktp : ℝ) :
    WfN 0 (recompute (treeNode.node lw a b lktp treeNode.nil treeNode.nil)) :=
  ⟨rfl, rfl, rfl⟩

theorem WfN_recompute (k : ℕ) (lw : ℝ) (a b : ℕ) (lktp : ℝ) (l r : treeNode)
    (h : (l.isNil && r.isNil) = false) (hl : WfN k l) (hr : WfN k r) :
    WfN (k + 1) (recompute (treeNode.node lw a b lktp l r)) := by
  simp only [recompute]
  rw [if_pos (show (!l.isNil || !r.isNil) = true by rw [← Bool.not_and, h]; rfl)]
  simp only [WfN]
  rw [if_neg (by simp [h])]
  exact ⟨trivial, hl, hr⟩

/-- The strengthened invariant is preserved by every update whose
context has the matching length. -/
theorem updAux_WfN (ctx : List Bool) :
    ∀ (lw : ℝ) (a b : ℕ) (lktp : ℝ) (l r : treeNode) (dir f z : Bool),
      WfN ctx.length (treeNode.node lw a b lktp l r) →
      WfN ctx.length (updAux (treeNode.node lw a b lktp l r) dir f ctx z).1 := by
  induction ctx with
  | nil =>
    intro lw a b lktp l r dir f z h
    obtain ⟨hl, hr, _⟩ := h
    rw [eq_nil_of_isNil l hl, eq_nil_of_isNil r hr]
    cases z
    · exact WfN_recompute_leaf lw (a + 1) b
        (lktp + Real.log ((a : ℝ) + 0.5) - Real.log ((a : ℝ) + (b : ℝ) + 1))
    · exact WfN_recompute_leaf lw a (b + 1)
        (lktp + Real.log ((b : ℝ) + 0.5) - Real.log ((a : ℝ) + (b : ℝ) + 1))
  | cons c rest ih =>
    intro lw a b lktp l r dir f z h
    obtain ⟨hWl, hWr⟩ := WfN_children rest.length lw a b lktp l r h
    cases c
    · cases r with
      | nil =>
        have hX : ∀ z2, ((updAux newNode false true rest z2).1).isNil = false := by
          intro z2
          rw [updAux_fst_isNil]
          rfl
        have hXW := ih 0 0 0 0 treeNode.nil treeNode.nil false true z (WfN_newNode rest.length)
        cases z
        · show WfN (rest.length + 1) (recompute (treeNode.node lw (a + 1) b
            (lktp + Real.log ((a : ℝ) + 0.5) - Real.log ((a : ℝ) + (b : ℝ) + 1)) l
            (updAux newNode false true rest false).1))
          exact WfN_recompute _ _ _ _ _ _ _ (by simp [hX false]) hWl hXW
        · show WfN (rest.length + 1) (recompute (treeNode.node lw a (b + 1)
            (lktp + Real.log ((b : ℝ) + 0.5) - Real.log ((a : ℝ) + (b : ℝ) + 1)) l
            (updAux newNode false true rest true).1))
          exact WfN_recompute _ _ _ _ _ _ _ (by simp [hX true]) hWl hXW
      | node rlw ra rb rk rl rr =>
        have hX : ∀ z2, ((updAux (treeNode.node rlw ra rb rk rl rr) false false rest z2).1).isNil
            = false := by
          intro z2
          rw [updAux_fst_isNil]
          rfl
        have hXW := ih rlw ra rb rk rl rr false false z hWr
        cases z
        · show WfN (rest.length + 1) (recompute (treeNode.node lw (a + 1) b
            (lktp + Real.log ((a : ℝ) + 0.5) - Real.log ((a : ℝ) + (b : ℝ) + 1)) l
            (updAux (treeNode.node rlw ra rb rk rl rr) false false rest false).1))
          exact WfN_recompute _ _ _ _ _ _ _ (by simp [hX false]) hWl hXW
        · show WfN (rest.length + 1) (recompute (treeNode.node lw a (b + 1)
            (lktp + Real.log ((b : ℝ) + 0.5) - Real.log ((a : ℝ) + (b : ℝ) + 1)) l
            (updAux (treeNode.node rlw ra rb rk rl rr) false false rest true).1))
          exact WfN_recompute _ _ _ _ _ _ _ (by simp [hX true]) hWl hXW
    · cases l with
      | nil =>
        have hX : ∀ z2, ((updAux newNode true true rest z2).1).isNil = false := by
          intro z2
          rw [updAux_fst_isNil]
          rfl
        have hXW := ih 0 0 0 0 treeNode.nil treeNode.nil true true z (WfN_newNode rest.length)
        cases z
        · show WfN (rest.length + 1) (recompute (treeNode.node lw (a + 1) b
            (lktp + Real.log ((a : ℝ) + 0.5) - Real.log ((a : ℝ) + (b : ℝ) + 1))
            (updAux newNode true true rest false).1 r))
          exact WfN_recompute _ _ _ _ _ _ _ (by simp [hX false]) hXW hWr
        · show WfN (rest.length + 1) (recompute (treeNode.node lw a (b + 1)
            (lktp + Real.log ((b : ℝ) + 0.5) - Real.log ((a : ℝ) + (b : ℝ) + 1))
            (updAux newNode true true rest true).1 r))
          exact WfN_recompute _ _ _ _ _ _ _ (by simp [hX true]) hXW hWr
      | node llw la lb lk ll lr =>
        have hX : ∀ z2, ((updAux (treeNode.node llw la lb lk ll lr) true false rest z2).1).isNil
            = false := by
          intro z2
          rw [updAux_fst_isNil]
          rfl
        have hXW := ih llw la lb lk ll lr true false z hWl
        cases z
        · show WfN (rest.length + 1) (recompute (treeNode.node lw (a + 1) b
            (lktp + Real.log ((a : ℝ) + 0.5) - Real.log ((a : ℝ) + (b : ℝ) + 1))
            (updAux (treeNode.node llw la lb lk ll lr) true false rest false).1 r))
          exact WfN_recompute _ _ _ _ _ _ _ (by simp [hX false]) hXW hWr
        · show WfN (rest.length + 1) (recompute (treeNode.node lw a (b + 1)
            (lktp + Real.log ((b : ℝ) + 0.5) - Real.log ((a : ℝ) + (b : ℝ) + 1))
            (updAux (treeNode.node llw la lb lk ll lr) true false rest true).1 r))
          exact WfN_recompute _ _ _ _ _ _ _ (by simp [hX true]) hXW hWr

/-- `WfN` is an invariant of the reachable model states: it holds for
the fresh tree and is preserved by every committed update. -/
theorem update_WfN (t : treeNode) (bits : List Bool) (z : Bool)
    (h : WfN bits.length t) : WfN bits.length (update t bits z).1 := by
  cases t with
  | nil =>
    unfold update
    have hlen : WfN bits.reverse.length (updAux treeNode.nil false false bits.reverse z).1 := by
      cases bits.reverse <;> exact WfN_nil _
    simpa using hlen
  | node lw a b lktp l r =>
    have h2 : WfN bits.reverse.length (treeNode.node lw a b lktp l r) := by simpa using h
    have h3 := updAux_WfN bits.reverse lw a b lktp l r false false z h2
    simpa using h3

theorem exp_logaddexp (x y : ℝ) : Real.exp (logaddexp x y) = Real.exp x + Real.exp y := by
  unfold logaddexp log1p
  split
  · rw [Real.exp_add, Real.exp_log (by positivity), mul_add, mul_one, ← Real.exp_add,
        show x + -(x - y) = y from by ring]
  · rw [Real.exp_add, Real.exp_log (by positivity), mul_add, mul_one, ← Real.exp_add,
        show y + (x - y) = x from by ring, add_comm]

/-- The two KT one-step factors sum to one:
`exp (lktp + log (a+½) - log (a+b+1)) + exp (lktp + log (b+½) - log (a+b+1)) = exp lktp`. -/
theorem kt_ratio_sum (lktp : ℝ) (a b : ℕ) :
    Real.exp (lktp + Real.log ((a : ℝ) + 0.5) - Real.log ((a : ℝ) + (b : ℝ) + 1))
      + Real.exp (lktp + Real.log ((b : ℝ) + 0.5) - Real.log ((a : ℝ) + (b : ℝ) + 1))
      = Real.exp lktp := by
  rw [Real.exp_sub, Real.exp_sub, Real.exp_add, Real.exp_add,
      Real.exp_log (show (0 : ℝ) < (a : ℝ) + 0.5 by positivity),
      Real.exp_log (show (0 : ℝ) < (b : ℝ) + 0.5 by positivity),
      Real.exp_log (show (0 : ℝ) < (a : ℝ) + (b : ℝ) + 1 by positivity)]
  have hne : ((a : ℝ) + (b : ℝ) + 1) ≠ 0 := by positivity
  field_simp
  ring

theorem exp_mix (u v w : ℝ) :
    Real.exp (logaddexp (Real.log 0.5 + u) (Real.log (1 - 0.5) + v + w))
      = 0.5 * Real.exp u + 0.5 * (Real.exp v * Real.exp w) := by
  rw [exp_logaddexp, show (1 - 0.5 : ℝ) = 0.5 from by norm_num, Real.exp_add, Real.exp_add,
      Real.exp_add, Real.exp_log (show (0 : ℝ) < 0.5 from by norm_num)]
  ring

theorem exp_mix2 (u v : ℝ) :
    Real.exp (logaddexp (Real.log 0.5 + u) (Real.log (1 - 0.5) + v))
      = 0.5 * Real.exp u + 0.5 * Real.exp v := by
  rw [exp_logaddexp, show (1 - 0.5 : ℝ) = 0.5 from by norm_num, Real.exp_add, Real.exp_add,
      Real.exp_log (show (0 : ℝ) < 0.5 from by norm_num)]

theorem recompute_logProb_mix (lw : ℝ) (a b : ℕ) (lktp : ℝ) (l r : treeNode)
    (hc : (!l.isNil || !r.isNil) = true) :
    (recompute (treeNode.node lw a b lktp l r)).LogProb
      = logaddexp (Real.log 0.5 + lktp) (Real.log (1 - 0.5) + l.LogProb + r.LogProb) := by
  simp only [recompute]
  rw [if_pos hc]
  rfl

/-- Core of normalization: on a tree satisfying the strengthened
invariant, the weighted probabilities after a speculative update with
bit 0 and with bit 1 sum (in probability domain) to the weighted
probability before. -/
theorem sum_exp_updAux : ∀ (ctx : List Bool) (lw : ℝ) (a b : ℕ) (lktp : ℝ)
    (l r : treeNode) (dir f : Bool),
    WfN ctx.length (treeNode.node lw a b lktp l r) →
    Real.exp ((updAux (treeNode.node lw a b lktp l r) dir f ctx false).1.LogProb)
      + Real.exp ((updAux (treeNode.node lw a b lktp l r) dir f ctx true).1.LogProb)
      = Real.exp lw := by
  intro ctx
  induction ctx with
  | nil =>
    intro lw a b lktp l r dir f h
    obtain ⟨hl, hr, hlw⟩ := h
    rw [eq_nil_of_isNil l hl, eq_nil_of_isNil r hr]
    have e0 : ((updAux (treeNode.node lw a b lktp treeNode.nil treeNode.nil)
        dir f [] false).1).LogProb
        = lktp + Real.log ((a : ℝ) + 0.5) - Real.log ((a : ℝ) + (b : ℝ) + 1) := rfl
    have e1 : ((updAux (treeNode.node lw a b lktp treeNode.nil treeNode.nil)
        dir f [] true).1).LogProb
        = lktp + Real.log ((b : ℝ) + 0.5) - Real.log ((a : ℝ) + (b : ℝ) + 1) := rfl
    rw [e0, e1, hlw, kt_ratio_sum]
  | cons c rest ih =>
    intro lw a b lktp l r dir f h
    have hKT := kt_ratio_sum lktp a b
    cases c
    · cases r with
      | nil =>
        have hX0 : ((updAux newNode false true rest false).1).isNil = false := by
          rw [updAux_fst_isNil]
          rfl
        have hX1 : ((updAux newNode false true rest true).1).isNil = false := by
          rw [updAux_fst_isNil]
          rfl
        have hT0 : ((updAux (treeNode.node lw a b lktp l treeNode.nil)
            dir f (false :: rest) false).1).LogProb
            = logaddexp (Real.log 0.5
                + (lktp + Real.log ((a : ℝ) + 0.5) - Real.log ((a : ℝ) + (b : ℝ) + 1)))
                (Real.log (1 - 0.5) + l.LogProb
                  + ((updAux newNode false true rest false).1).LogProb) := by
          show (recompute (treeNode.node lw (a + 1) b
              (lktp + Real.log ((a : ℝ) + 0.5) - Real.log ((a : ℝ) + (b : ℝ) + 1)) l
              ((updAux newNode false true rest false).1))).LogProb = _
          exact recompute_logProb_mix _ _ _ _ _ _ (by simp [hX0])
        have hT1 : ((updAux (treeNode.node lw a b lktp l treeNode.nil)
            dir f (false :: rest) true).1).LogProb
            = logaddexp (Real.log 0.5
                + (lktp + Real.log ((b : ℝ) + 0.5) - Real.log ((a : ℝ) + (b : ℝ) + 1)))
                (Real.log (1 - 0.5) + l.LogProb
                  + ((updAux newNode false true rest true).1).LogProb) := by
          show (recompute (treeNode.node lw a (b + 1)
              (lktp + Real.log ((b : ℝ) + 0.5) - Real.log ((a : ℝ) + (b : ℝ) + 1)) l
              ((updAux newNode false true rest true).1))).LogProb = _
          exact recompute_logProb_mix _ _ _ _ _ _ (by simp [hX1])
        have hIH : Real.exp (((updAux newNode false true rest false).1).LogProb)
            + Real.exp (((updAux newNode false true rest true).1).LogProb) = Real.exp 0 :=
          ih 0 0 0 0 treeNode.nil treeNode.nil false true (WfN_newNode rest.length)
        rw [Real.exp_zero] at hIH
        rw [hT0, hT1, exp_mix, exp_mix]
        cases l with
        | nil =>
          have hh : lw = lktp ∧ lktp = 0 := by
            simpa [WfN, treeNode.isNil] using h
          obtain ⟨hw1, hw2⟩ := hh
          subst hw2
          subst hw1
          have hnil : Real.exp (treeNode.LogProb treeNode.nil) = 1 := by
            simp [treeNode.LogProb]
          rw [Real.exp_zero] at hKT
          rw [hnil, Real.exp_zero]
          linear_combination 0.5 * hKT + 0.5 * hIH
        | node llw la lb lk ll lr =>
          have hh : lw = logaddexp (Real.log 0.5 + lktp) (Real.log (1 - 0.5) + llw) := by
            have h2 := h
            simp [WfN, treeNode.isNil, treeNode.LogProb] at h2
            exact h2.1
          have hlwE : Real.exp lw = 0.5 * Real.exp lktp + 0.5 * Real.exp llw := by
            rw [hh, exp_mix2]
          rw [show (treeNode.node llw la lb lk ll lr).LogProb = llw from rfl]
          linear_combination 0.5 * hKT + 0.5 * Real.exp llw * hIH - hlwE
      | node rlw ra rb rk rl rr =>
        have hX0 : ((updAux (treeNode.node rlw ra rb rk rl rr) false false rest false).1).isNil
            = false := by
          rw [updAux_fst_isNil]
          rfl
        have hX1 : ((updAux (treeNode.node rlw ra rb rk rl rr) false false rest true).1).isNil
            = false := by
          rw [updAux_fst_isNil]
          rfl
        have hT0 : ((updAux (treeNode.node lw a b lktp l (treeNode.node rlw ra rb rk rl rr))
            dir f (false :: rest) false).1).LogProb
            = logaddexp (Real.log 0.5
                + (lktp + Real.log ((a : ℝ) + 0.5) - Real.log ((a : ℝ) + (b : ℝ) + 1)))
                (Real.log (1 - 0.5) + l.LogProb
                  + ((updAux (treeNode.node rlw ra rb rk rl rr) false false rest false).1).LogProb) := by
          show (recompute (treeNode.node lw (a + 1) b
              (lktp + Real.log ((a : ℝ) + 0.5) - Real.log ((a : ℝ) + (b : ℝ) + 1)) l
              ((updAux (treeNode.node rlw ra rb rk rl rr) false false rest false).1))).LogProb = _
          exact recompute_logProb_mix _ _ _ _ _ _ (by simp [hX0])
        have hT1 : ((updAux (treeNode.node lw a b lktp l (treeNode.node rlw ra rb rk rl rr))
            dir f (false :: rest) true).1).LogProb
            = logaddexp (Real.log 0.5
                + (lktp + Real.log ((b : ℝ) + 0.5) - Real.log ((a : ℝ) + (b : ℝ) + 1)))
                (Real.log (1 - 0.5) + l.LogProb
                  + ((updAux (treeNode.node rlw ra rb rk rl rr) false false rest true).1).LogProb) := by
          show (recompute (treeNode.node lw a (b + 1)
              (lktp + Real.log ((b : ℝ) + 0.5) - Real.log ((a : ℝ) + (b : ℝ) + 1)) l
              ((updAux (treeNode.node rlw ra rb rk rl rr) false false rest true).1))).LogProb = _
          exact recompute_logProb_mix _ _ _ _ _ _ (by simp [hX1])
        have hh : lw = logaddexp (Real.log 0.5 + lktp)
            (Real.log (1 - 0.5) + l.LogProb + rlw)
            ∧ WfN rest.length l ∧ WfN rest.length (treeNode.node rlw ra rb rk rl rr) := by
          simpa [WfN, treeNode.isNil, treeNode.LogProb] using h
        have hIH := ih rlw ra rb rk rl rr false false hh.2.2
        have hlwE : Real.exp lw
            = 0.5 * Real.exp lktp + 0.5 * (Real.exp l.LogProb * Real.exp rlw) := by
          rw [hh.1, exp_mix]
        rw [hT0, hT1, exp_mix, exp_mix]
        linear_combination 0.5 * hKT + 0.5 * Real.exp l.LogProb * hIH - hlwE
    · cases l with
      | nil =>
        have hX0 : ((updAux newNode true true rest false).1).isNil = false := by
          rw [updAux_fst_isNil]
          rfl
        have hX1 : ((updAux newNode true true rest true).1).isNil = false := by
          rw [updAux_fst_isNil]
          rfl
        have hT0 : ((updAux (treeNode.node lw a b lktp treeNode.nil r)
            dir f (true :: rest) false).1).LogProb
            = logaddexp (Real.log 0.5
                + (lktp + Real.log ((a : ℝ) + 0.5) - Real.log ((a : ℝ) + (b : ℝ) + 1)))
                (Real.log (1 - 0.5) + ((updAux newNode true true rest false).1).LogProb
                  + r.LogProb) := by
          show (recompute (treeNode.node lw (a + 1) b
              (lktp + Real.log ((a : ℝ) + 0.5) - Real.log ((a : ℝ) + (b : ℝ) + 1))
              ((updAux newNode true true rest false).1) r)).LogProb = _
          exact recompute_logProb_mix _ _ _ _ _ _ (by simp [hX0])
        have hT1 : ((updAux (treeNode.node lw a b lktp treeNode.nil r)
            dir f (true :: rest) true).1).LogProb
            = logaddexp (Real.log 0.5
                + (lktp + Real.log ((b : ℝ) + 0.5) - Real.log ((a : ℝ) + (b : ℝ) + 1)))
                (Real.log (1 - 0.5) + ((updAux newNode true true rest true).1).LogProb
                  + r.LogProb) := by
          show (recompute (treeNode.node lw a (b + 1)
              (lktp + Real.log ((b : ℝ) + 0.5) - Real.log ((a : ℝ) + (b : ℝ) + 1))
              ((updAux newNode true true rest true).1) r)).LogProb = _
          exact recompute_logProb_mix _ _ _ _ _ _ (by simp [hX1])
        have hIH : Real.exp (((updAux newNode true true rest false).1).LogProb)
            + Real.exp (((updAux newNode true true rest true).1).LogProb) = Real.exp 0 :=
          ih 0 0 0 0 treeNode.nil treeNode.nil true true (WfN_newNode rest.length)
        rw [Real.exp_zero] at hIH
        rw [hT0, hT1, exp_mix, exp_mix]
        cases r with
        | nil =>
          have hh : lw = lktp ∧ lktp = 0 := by
            simpa [WfN, treeNode.isNil] using h
          obtain ⟨hw1, hw2⟩ := hh
          subst hw2
          subst hw1
          have hnil : Real.exp (treeNode.LogProb treeNode.nil) = 1 := by
            simp [treeNode.LogProb]
          rw [Real.exp_zero] at hKT
          rw [hnil, Real.exp_zero]
          linear_combination 0.5 * hKT + 0.5 * hIH
        | node rlw ra rb rk rl rr =>
          have hh : lw = logaddexp (Real.log 0.5 + lktp) (Real.log (1 - 0.5) + rlw) := by
            have h2 := h
            simp [WfN, treeNode.isNil, treeNode.LogProb] at h2
            exact h2.1
          have hlwE : Real.exp lw = 0.5 * Real.exp lktp + 0.5 * Real.exp rlw := by
            rw [hh, exp_mix2]
          rw [show (treeNode.node rlw ra rb rk rl rr).LogProb = rlw from rfl]
          linear_combination 0.5 * hKT + 0.5 * Real.exp rlw * hIH - hlwE
      | node llw la lb lk ll lr =>
        have hX0 : ((updAux (treeNode.node llw la lb lk ll lr) true false rest false).1).isNil
            = false := by
          rw [updAux_fst_isNil]
          rfl
        have hX1 : ((updAux (treeNode.node llw la lb lk ll lr) true false rest true).1).isNil
            = false := by
          rw [updAux_fst_isNil]
          rfl
        have hT0 : ((updAux (treeNode.node lw a b lktp (treeNode.node llw la lb lk ll lr) r)
            dir f (true :: rest) false).1).LogProb
            = logaddexp (Real.log 0.5
                + (lktp + Real.log ((a : ℝ) + 0.5) - Real.log ((a : ℝ) + (b : ℝ) + 1)))
                (Real.log (1 - 0.5)
                  + ((updAux (treeNode.node llw la lb lk ll lr) true false rest false).1).LogProb
                  + r.LogProb) := by
          show (recompute (treeNode.node lw (a + 1) b
              (lktp + Real.log ((a : ℝ) + 0.5) - Real.log ((a : ℝ) + (b : ℝ) + 1))
              ((updAux (treeNode.node llw la lb lk ll lr) true false rest false).1) r)).LogProb = _
          exact recompute_logProb_mix _ _ _ _ _ _ (by simp [hX0])
        have hT1 : ((updAux (treeNode.node lw a b lktp (treeNode.node llw la lb lk ll lr) r)
            dir f (true :: rest) true).1).LogProb
            = logaddexp (Real.log 0.5
                + (lktp + Real.log ((b : ℝ) + 0.5) - Real.log ((a : ℝ) + (b : ℝ) + 1)))
                (Real.log (1 - 0.5)
                  + ((updAux (treeNode.node llw la lb lk ll lr) true false rest true).1).LogProb
                  + r.LogProb) := by
          show (recompute (treeNode.node lw a (b + 1)
              (lktp + Real.log ((b : ℝ) + 0.5) - Real.log ((a : ℝ) + (b : ℝ) + 1))
              ((updAux (treeNode.node llw la lb lk ll lr) true false rest true).1) r)).LogProb = _
          exact recompute_logProb_mix _ _ _ _ _ _ (by simp [hX1])
        have hh : lw = logaddexp (Real.log 0.5 + lktp)
            (Real.log (1 - 0.5) + llw + r.LogProb)
            ∧ WfN rest.length (treeNode.node llw la lb lk ll lr) ∧ WfN rest.length r := by
          simpa [WfN, treeNode.isNil, treeNode.LogProb] using h
        have hIH := ih llw la lb lk ll lr true false hh.2.1
        have hlwE : Real.exp lw
            = 0.5 * Real.exp lktp + 0.5 * (Real.exp llw * Real.exp r.LogProb) := by
          rw [hh.1, exp_mix]
        rw [hT0, hT1, exp_mix, exp_mix]
        linear_combination 0.5 * hKT + 0.5 * Real.exp r.LogProb * hIH - hlwE

/-- Claim C6: for every model state satisfying the reachable-state
invariant `WfN` (fresh trees satisfy it and `update` preserves it, see
`update_WfN`), the probability returned by `Prob0` — `exp` of the root
log-probability change under a speculative update with bit 0 — plus
the analogous probability for bit 1 equals 1. -/
theorem claim6_normalization (m : CTW) (h1 : m.Root.isNil = false)
    (h2 : WfN m.Bits.length m.Root) :
    (m.Prob0).1 + Real.exp ((update m.Root m.Bits true).1.LogProb - m.Root.LogProb) = 1 := by
  obtain ⟨bits, root⟩ := m
  cases root with
  | nil => simp [treeNode.isNil] at h1
  | node lw a b lktp l r =>
    have hsum := sum_exp_updAux bits.reverse lw a b lktp l r false false
      (by simpa using h2)
    show Real.exp
        ((updAux (treeNode.node lw a b lktp l r) false false bits.reverse false).1.LogProb - lw)
      + Real.exp
        ((updAux (treeNode.node lw a b lktp l r) false false bits.reverse true).1.LogProb - lw)
      = 1
    rw [Real.exp_sub, Real.exp_sub, div_add_div_same, hsum]
    exact div_self (Real.exp_ne_zero lw)

/-- Witness for C6 on a fresh depth-1 model. -/
theorem claim6_witness :
    ((NewCTW [false]).Prob0).1
      + Real.exp ((update (NewCTW [false]).Root (NewCTW [false]).Bits true).1.LogProb
          - (NewCTW [false]).Root.LogProb) = 1 :=
  claim6_normalization (NewCTW [false]) rfl (WfN_newNode 1)

end Ctw
